import Mathlib

/-! # HTTP fetcher (`internal/protocol/http/fetcher.go`)

A shallow embedding of the chunk partitioner, the per-chunk worker loop, the
probe classification of `Resolve` and the `Store`/`Restore` pair, followed by
the properties proved about them.

Conventions of the embedding:
* `int64` and `int` values are `Int`.  Every arithmetic operation that the
  theorems below reason about stays inside the 64-bit range for inputs that are
  themselves 64-bit values (sizes are non-negative, products are bounded by the
  size, offsets by the chunk end), so no wrap-around is modelled.
* Go strings are lists of characters.
* The network and the file system are an explicit sequence of events handed
  to the worker: what the scan of the `failed` flags saw, what `client.Do`
  returned, what each `Read` and `WriteAt` returned.
-/

namespace Fetcher

/-! ## Chunks and the partitioner -/

/-- The `chunk` struct: `Begin`, `End`, `Downloaded` are `int64`; `failed` and
`retryTimes` are the unexported transient fields. -/
structure chunk where
  Begin : Int
  End : Int
  Downloaded : Int
  failed : Bool
  retryTimes : Nat
  deriving DecidableEq, Repr

/-- `func (c *chunk) remain() int64`. -/
def chunk.remain (c : chunk) : Int :=
  c.End - c.Begin + 1 - c.Downloaded

/-- `func newChunk(begin int64, end int64) *chunk`: the remaining fields are
zero values. -/
def newChunk (b e : Int) : chunk :=
  { Begin := b, End := e, Downloaded := 0, failed := false, retryTimes := 0 }

/-- Body of the `for i := 0; i < connections; i++` loop of `splitChunk`,
for one index `i`. -/
def splitAt (size connections chunkSize : Int) (i : Nat) : chunk :=
  let b := chunkSize * (i : Int)
  let e := if (i : Int) = connections - 1 then size - 1 else b + chunkSize - 1
  newChunk b e

/-- `func (f *Fetcher) splitChunk() (chunks []*chunk)`, as a function of
`f.meta.Res.Range`, `f.meta.Res.Size` and the `Connections` option.
`none` is a run-time panic: the integer division by a zero `connections`, or
`make` with a negative length. Go's `/` on integers truncates toward zero. -/
def splitChunk (range : Bool) (size connections : Int) : Option (List chunk) :=
  if range then
    if connections ≤ 0 then none
    else
      let chunkSize := Int.tdiv size connections
      some ((List.range connections.toNat).map (splitAt size connections chunkSize))
  else
    some [newChunk 0 0]

/-- The set of byte offsets of a chunk's inclusive interval `[Begin, End]`. -/
def chunk.covers (c : chunk) (x : Int) : Prop :=
  c.Begin ≤ x ∧ x ≤ c.End

instance (c : chunk) (x : Int) : Decidable (c.covers x) := by
  unfold chunk.covers; infer_instance

/-! ## The chunk worker (`fetchChunk`) -/

/-- Errors held in a worker's `err` result. -/
inductive Err where
  /-- An error for which `errors.Is(err, context.Canceled)` holds. -/
  | canceled
  /-- `*RequestError` with its `Code` and `Msg`. -/
  | request (code : Int) (msg : List Char)
  /-- `*strconv.NumError`: `true` for `ErrRange`, `false` for `ErrSyntax`. -/
  | parse (outOfRange : Bool) (input : List Char)
  /-- Any other transport, read or write error. -/
  | other (tag : Nat)
  deriving DecidableEq, Repr

/-- `errors.Is(err, context.Canceled)`. -/
def Err.isCanceled : Err → Bool
  | .canceled => true
  | _ => false

/-- The `return` statement through which `fetchChunk` left. -/
inductive Exit where
  /-- `return nil` of the completion check at the loop head. -/
  | completed
  /-- `return` taken when all chunks failed and `retryTimes >= 3`. -/
  | exhausted
  /-- `return` after `buildRequest` failed. -/
  | buildError
  /-- `return` after an error that is a cancellation. -/
  | canceled
  /-- `break` after the read loop returned `nil` with `finished` set. -/
  | finished
  /-- `break` after the read loop returned `nil` on `io.EOF`. -/
  | eof
  /-- Run-time panic of `buf[:n]` with a negative `n`. -/
  | panicked
  deriving DecidableEq, Repr

/-- Where the worker stands between two inputs from its environment. -/
inductive Pc where
  /-- `chunk.failed` is set: about to scan the `failed` flags of `f.chunks`. -/
  | scan
  /-- About to call `buildRequest` and `client.Do`. -/
  | request
  /-- Inside the read loop, about to call `reader.Read`. -/
  | streaming
  /-- Returned. -/
  | exited (x : Exit)
  deriving DecidableEq, Repr

/-- What a `Read` returned besides its byte count. -/
inductive ReadErr where
  | eof
  | fail (e : Err)
  deriving DecidableEq, Repr

/-- One input of the environment to a worker. -/
inductive Ev where
  /-- The `failed` flags of the other chunks, as read by the scan. -/
  | scan (others : List Bool)
  /-- The error of `buildRequest` if any, and what `client.Do` returned: an
  error, or a response with its `StatusCode` and `Status`. -/
  | request (build : Option Err) (resp : Except Err (Int × List Char))
  /-- One `reader.Read(buf)`: the count `n`, its error, and the error of the
  `WriteAt` that follows when `n > 0`. -/
  | read (n : Nat) (rerr : Option ReadErr) (werr : Option Err)

/-- State of one `fetchChunk` call: the chunk, the named result `err` and the
program point, with a record of what the call did. `requests` holds, for each
`client.Do` call in order, the bounds of the `Range` header when one was set;
`failures` holds the error of each attempt that ended in the `if err != nil`
block, in order; `writes` holds, for each `WriteAt` call in order, the offset,
the length of the slice and whether the call succeeded. -/
structure Worker where
  c : chunk
  err : Option Err
  pc : Pc
  requests : List (Option (Int × Int))
  failures : List Err
  writes : List (Int × Int × Bool)
  deriving DecidableEq, Repr

/-- Head of the retry loop: the completion check, then the test of
`chunk.failed` that decides whether the flags are scanned. -/
def loopHead (range : Bool) (w : Worker) : Worker :=
  if range = true ∧ w.c.remain ≤ 0 then { w with err := none, pc := .exited .completed }
  else if w.c.failed = true then { w with pc := .scan }
  else { w with pc := .request }

/-- The `if err != nil` block after an attempt. -/
def onError (range : Bool) (w : Worker) (e : Err) : Worker :=
  if e.isCanceled = true then
    { w with err := some e, failures := w.failures ++ [e], pc := .exited .canceled }
  else
    loopHead range
      { w with err := some e, failures := w.failures ++ [e], c := { w.c with failed := true } }

/-- The attempt returned `nil`: `break`, then `return`. -/
def onSuccess (x : Exit) (w : Worker) : Worker :=
  { w with err := none, pc := .exited x }

/-- Entry of `fetchChunk` up to the first input. -/
def enter (range : Bool) (c : chunk) : Worker :=
  loopHead range
    { c := { c with failed := false, retryTimes := 0 }, err := none, pc := .request,
      requests := [], failures := [], writes := [] }

/-- The scan of the flags and the `retryTimes` escalation. The scanned slice
holds this chunk too, whose flag is set here. -/
def stepScan (w : Worker) (others : List Bool) : Worker :=
  let allFailed := (w.c.failed :: others).all id
  if allFailed = true then
    if w.c.retryTimes ≥ 3 then { w with pc := .exited .exhausted }
    else { w with c := { w.c with retryTimes := w.c.retryTimes + 1 }, pc := .request }
  else { w with pc := .request }

/-- From `buildRequest` to the status check of the response. -/
def stepRequest (range : Bool) (w : Worker) (build : Option Err)
    (resp : Except Err (Int × List Char)) : Worker :=
  match build with
  | some e => { w with err := some e, pc := .exited .buildError }
  | none =>
    let hdr := if range = true then some (w.c.Begin + w.c.Downloaded, w.c.End) else none
    let c1 := if range = true then w.c else { w.c with Downloaded := 0 }
    let w1 := { w with c := c1, err := none, requests := w.requests ++ [hdr] }
    match resp with
    | .error e => onError range w1 e
    | .ok (code, status) =>
      if code ≠ 200 ∧ code ≠ 206 then onError range w1 (.request code status)
      else { w1 with c := { c1 with failed := false }, pc := .streaming }

/-- The `if err != nil` at the end of one turn of the read loop. -/
def readTail (range : Bool) (w : Worker) (rerr : Option ReadErr) : Worker :=
  match rerr with
  | none => w
  | some .eof => onSuccess .eof w
  | some (.fail e) => onError range w e

/-- One turn of the read loop. -/
def stepRead (range : Bool) (w : Worker) (n : Nat) (rerr : Option ReadErr)
    (werr : Option Err) : Worker :=
  if 0 < n then
    let finished := range && decide (w.c.remain < (n : Int))
    let m : Int := if finished = true then w.c.remain else (n : Int)
    if m < 0 then { w with pc := .exited .panicked }
    else
      let off := w.c.Begin + w.c.Downloaded
      match werr with
      | some e => onError range { w with writes := w.writes ++ [(off, m, false)] } e
      | none =>
        let w1 := { w with c := { w.c with Downloaded := w.c.Downloaded + m },
                           writes := w.writes ++ [(off, m, true)] }
        if finished = true then onSuccess .finished w1 else readTail range w1 rerr
  else readTail range w rerr

/-- One input consumed. An input that the worker is not waiting for (it has
returned, or waits for another kind) leaves the state as it is. -/
def step (range : Bool) (w : Worker) (ev : Ev) : Worker :=
  match w.pc, ev with
  | .scan, .scan others => stepScan w others
  | .request, .request build resp => stepRequest range w build resp
  | .streaming, .read n rerr werr => stepRead range w n rerr werr
  | _, _ => w

/-- The worker run on a sequence of inputs. -/
def run (range : Bool) (w : Worker) (evs : List Ev) : Worker :=
  evs.foldl (step range) w

/-- `func (f *Fetcher) fetchChunk(index int, ctx context.Context) (err error)`
for the chunk `c = f.chunks[index]`, with `range = f.meta.Res.Range`. -/
def fetchChunk (range : Bool) (c : chunk) (evs : List Ev) : Worker :=
  run range (enter range c) evs

/-! ## `Resolve`: classification of the probe response -/

/-- Modelled from the spec: `base.HttpCodeOK`, a constant of package `base`
that is not among the sources; status 200. -/
def HttpCodeOK : Int := 200

/-- Modelled from the spec: `base.HttpCodePartialContent`, a constant of
package `base` that is not among the sources; status 206. -/
def HttpCodePartialContent : Int := 206

/-- Modelled from the spec: `base.HttpHeaderBytes`, a constant of package
`base` that is not among the sources; the text `bytes`. -/
def HttpHeaderBytes : List Char := "bytes".toList

/-- `path.Base` of the Go library, first loop: strip trailing slashes. -/
def stripTrailingSlashes (s : List Char) : List Char :=
  (s.reverse.dropWhile (· = '/')).reverse

/-- `path.Base`, second step: what follows the last slash, or the whole text
when it holds no slash (`path[i+1:]` for `i = lastSlash(path)`, if `i >= 0`). -/
def afterLastSlash (s : List Char) : List Char :=
  (s.reverse.takeWhile (· ≠ '/')).reverse

/-- `path.Base` of the Go library. -/
def pathBase (s : List Char) : List Char :=
  if s = [] then ['.']
  else
    let p := afterLastSlash (stripTrailingSlashes s)
    if p = [] then ['/'] else p

/-- Largest `uint64`. -/
def maxUint64 : Nat := 2 ^ 64 - 1

/-- The digit loop of `strconv.ParseUint(s, 10, 64)`. The error is `true` for
`ErrRange` and `false` for `ErrSyntax`. -/
def parseUintLoop (n : Nat) : List Char → Except Bool Nat
  | [] => .ok n
  | c :: cs =>
    if '0' ≤ c ∧ c ≤ '9' then
      if n ≥ maxUint64 / 10 + 1 then .error true
      else
        let n1 := n * 10 + (c.toNat - '0'.toNat)
        if n1 > maxUint64 then .error true else parseUintLoop n1 cs
    else .error false

/-- `strconv.ParseUint(s, 10, 64)`. -/
def parseUint (s : List Char) : Except Bool Nat :=
  if s = [] then .error false else parseUintLoop 0 s

/-- `strconv.ParseInt(s, 10, 64)`. On `ErrRange` from `ParseUint` the value
carried on is the largest `uint64`, which the range checks then reject. -/
def parseInt (s : List Char) : Except Bool Int :=
  match s with
  | [] => .error false
  | c :: cs =>
    let neg := decide (c = '-')
    let body := if c = '+' ∨ c = '-' then cs else c :: cs
    match parseUint body with
    | .error false => .error false
    | r =>
      let un := match r with
        | .ok v => v
        | .error _ => maxUint64
      if neg = false ∧ un ≥ (2 ^ 63 : Nat) then .error true
      else if neg = true ∧ un > (2 ^ 63 : Nat) then .error true
      else .ok (if neg = true then -(un : Int) else (un : Int))

/-- The header values of the probe response that `Resolve` reads, each the
result of `Header.Get` (empty when the header is absent). -/
structure Response where
  StatusCode : Int
  Status : List Char
  AcceptRanges : List Char
  ContentRange : List Char
  ContentLength : List Char
  LastModified : List Char
  ContentDisposition : List Char

/-- Modelled from the spec: `base.FileInfo`, a type of package `base` that is
not among the sources; `FileInfo{ name, size, ctime }`. -/
structure FileInfo where
  Name : List Char
  Size : Int
  Ctime : Option Int
  deriving DecidableEq, Repr

/-- Modelled from the spec: `base.Resource`, a type of package `base` that is
not among the sources; `range_supported`, the total `size`, the files. -/
structure Resource where
  Range : Bool
  Size : Int
  Files : List FileInfo
  deriving DecidableEq, Repr

/-- Functions of the Go library that `Resolve` calls and that are taken as
given: `time.Parse(time.RFC1123, ·)` (the zero time on error),
`mime.ParseMediaType(·)` followed by `params["filename"]` (empty when there is
none), `(*mime.WordDecoder).Decode` (empty on error) and `url.QueryUnescape`
(empty on error). -/
structure Deps where
  parseTime : List Char → Int
  dispositionFilename : List Char → List Char
  decodeWord : List Char → List Char
  queryUnescape : List Char → List Char

/-- `strings.Replace(filename, "UTF8", "UTF-8", 1)`. -/
def replaceUTF8 : List Char → List Char
  | [] => []
  | c :: cs =>
    if "UTF8".toList.isPrefixOf (c :: cs) then "UTF-8".toList ++ (c :: cs).drop 4
    else c :: replaceUTF8 cs

/-- The value of `file.Name` after the `Content-Disposition` block of
`Resolve`. -/
def dispositionName (d : Deps) (contentDisposition : List Char) : List Char :=
  if contentDisposition ≠ [] then
    let filename := d.dispositionFilename contentDisposition
    if filename ≠ [] then
      if "=?".toList.isPrefixOf filename then d.decodeWord (replaceUTF8 filename)
      else filename
    else []
  else []

/-- The two blocks of `Resolve` after the `Content-Disposition` block: `name`
is `file.Name` on entry, `urlPath` is `httpReq.URL.Path` and `host` is
`httpReq.URL.Hostname()`. -/
def deriveName (unescape : List Char → List Char) (name urlPath host : List Char) :
    List Char :=
  let n1 :=
    if name = [] then
      let b := pathBase urlPath
      if b ≠ [] then unescape b else b
    else name
  if n1 = [] ∨ n1 = ['/'] ∨ n1 = ['.'] then host else n1

/-- The status and size part of `Resolve`: `res.Range` and `res.Size`, or the
error returned. -/
def classify (r : Response) : Except Err (Bool × Int) :=
  if HttpCodePartialContent = r.StatusCode ∨
      (HttpCodeOK = r.StatusCode ∧ r.AcceptRanges = HttpHeaderBytes ∧
        HttpHeaderBytes.isPrefixOf r.ContentRange = true) then
    let contentTotal := pathBase r.ContentRange
    if contentTotal ≠ [] ∧ contentTotal ≠ ['*'] then
      match parseInt contentTotal with
      | .error k => .error (.parse k contentTotal)
      | .ok v => .ok (true, v)
    else .ok (true, 0)
  else if HttpCodeOK = r.StatusCode then
    if r.ContentLength ≠ [] then
      match parseInt r.ContentLength with
      | .error k => .error (.parse k r.ContentLength)
      | .ok v => .ok (false, v)
    else .ok (false, 0)
  else .error (.request r.StatusCode r.Status)

/-- Modelled from the spec: `fetcher.FetcherMeta`, a type of package `fetcher`
that is not among the sources; of it, the resource filled by `Resolve` (absent
before) and the `Connections` option filled by `Create`. -/
structure FetcherMeta where
  Res : Option Resource
  Connections : Int
  deriving DecidableEq, Repr

/-- `func (f *Fetcher) Resolve(req *base.Request) error`, from the probe on.
`probe` is what came before the classification: the error of `ParseReqExtra`,
`buildRequest` or `client.Do`, or the response. Returns the error and the
fetcher's meta afterwards. -/
def Resolve (d : Deps) (urlPath host : List Char) (m : FetcherMeta)
    (probe : Except Err Response) : Option Err × FetcherMeta :=
  match probe with
  | .error e => (some e, m)
  | .ok r =>
    match classify r with
    | .error e => (some e, m)
    | .ok (range, size) =>
      let ctime := if r.LastModified ≠ [] then some (d.parseTime r.LastModified) else none
      let name := deriveName d.queryUnescape (dispositionName d r.ContentDisposition) urlPath host
      let file : FileInfo := { Name := name, Size := size, Ctime := ctime }
      (none, { m with Res := some { Range := range, Size := size, Files := [file] } })

/-! ## `Store`, `Restore` and `Start` -/

/-- The fields of `Fetcher` that partitioning, persistence and the workers
use. `chunks` is `none` for a `nil` slice. -/
structure FetcherState where
  meta : FetcherMeta
  chunks : Option (List chunk)
  deriving DecidableEq, Repr

/-- `type fetcherData struct { Chunks []*chunk }`. -/
structure fetcherData where
  Chunks : Option (List chunk)
  deriving DecidableEq, Repr

/-- `len` of a slice that may be `nil`. -/
def sliceLen (cs : Option (List chunk)) : Nat :=
  match cs with
  | none => 0
  | some l => l.length

/-- `func (fm *FetcherManager) Store(f fetcher.Fetcher) (data any, err error)`. -/
def Store (f : FetcherState) : fetcherData :=
  { Chunks := f.chunks }

/-- The function returned by `func (fm *FetcherManager) Restore()`. -/
def Restore (m : FetcherMeta) (fd : fetcherData) : FetcherState :=
  { meta := m, chunks := if sliceLen fd.Chunks > 0 then fd.Chunks else none }

/-- Outcome of `Start`. -/
inductive Started where
  /-- `Start` returned this error. -/
  | failed (e : Err)
  /-- Run-time panic (no resource, or `splitChunk` panicked). -/
  | panicked
  /-- `fetch` ran: the fetcher and, per chunk, the worker at its entry. -/
  | running (f : FetcherState) (workers : List Worker)

/-- `func (f *Fetcher) Start() (err error)`: `pre` is the error of opening the
file or of `ParseReqExtra`, if any; then the chunks are partitioned when the
slice is `nil`, and `fetch` starts one `fetchChunk` per chunk. -/
def Start (f : FetcherState) (pre : Option Err) : Started :=
  match pre with
  | some e => .failed e
  | none =>
    match f.meta.Res with
    | none => .panicked
    | some res =>
      let chunks := match f.chunks with
        | none => splitChunk res.Range res.Size f.meta.Connections
        | some cs => some cs
      match chunks with
      | none => .panicked
      | some cs => .running { f with chunks := some cs } (cs.map (enter res.Range))

/-! ## Predicates and test inputs used by the proofs -/

/-- The bounds on `Downloaded` and on the slices written, as a predicate on
worker states, relative to the chunk `c0` the worker was started on. -/
def boundsInv (c0 : chunk) (w : Worker) : Prop :=
  w.c.Begin = c0.Begin ∧ w.c.End = c0.End ∧ 0 ≤ w.c.Downloaded ∧
    w.c.Downloaded ≤ c0.End - c0.Begin + 1 ∧
    ∀ wr ∈ w.writes, 0 ≤ wr.2.1 ∧ c0.Begin ≤ wr.1 ∧ wr.1 + wr.2.1 ≤ c0.End + 1

/-- What holds of a range-supported worker at each program point: a worker
that scans the flags holds the error of its last attempt, and so does one that
returned on exhaustion, on a build error or on cancellation; one that returned
on the completion check or with `finished` set has nothing left to download;
`buf[:n]` never panics. -/
def exitInv (w : Worker) : Prop :=
  match w.pc with
  | .scan => w.err ≠ none ∧ w.c.failed = true
  | .request => True
  | .streaming => True
  | .exited .completed => w.c.remain ≤ 0
  | .exited .finished => w.c.remain = 0
  | .exited .eof => True
  | .exited .exhausted => w.err ≠ none
  | .exited .buildError => w.err ≠ none
  | .exited .canceled => w.err ≠ none
  | .exited .panicked => False

/-- The byte offset `x` lies in the slice of a `WriteAt` call that succeeded. -/
def written (ws : List (Int × Int × Bool)) (x : Int) : Prop :=
  ∃ wr ∈ ws, wr.2.2 = true ∧ wr.1 ≤ x ∧ x < wr.1 + wr.2.1

/-- The offsets written by a worker started on `c0` are those from
`c0.Begin + c0.Downloaded` up to `Begin + Downloaded`, the latter excluded. -/
def coverInv (c0 : chunk) (w : Worker) : Prop :=
  c0.Downloaded ≤ w.c.Downloaded ∧
    ∀ x, written w.writes x ↔ (c0.Begin + c0.Downloaded ≤ x ∧ x < c0.Begin + w.c.Downloaded)

/-- Bookkeeping of a worker at each program point: every request made has
failed, except the one in progress or the one that ended the worker with
success; a worker that scans the flags, or that returned on exhaustion, has its
`failed` flag set and holds the error of its last failed attempt; a worker that
returned on the completion check is on a range-supported resource with nothing
left to download; and a recorded failure is a cancellation exactly when the
worker returned on it. -/
def countInv (r : Bool) (w : Worker) : Prop :=
  (w.pc ≠ .exited .canceled → ∀ e ∈ w.failures, e.isCanceled = false) ∧
  match w.pc with
  | .scan => w.requests.length = w.failures.length ∧ w.c.failed = true ∧
      w.err = w.failures.getLast? ∧ w.failures ≠ []
  | .request => w.requests.length = w.failures.length
  | .streaming => w.requests.length = w.failures.length + 1
  | .exited .completed => w.requests.length = w.failures.length ∧ r = true ∧
      w.c.remain ≤ 0 ∧ w.err = none
  | .exited .exhausted => w.requests.length = w.failures.length ∧
      w.err = w.failures.getLast? ∧ w.failures ≠ []
  | .exited .buildError => w.requests.length = w.failures.length
  | .exited .canceled => w.requests.length = w.failures.length ∧
      ∃ e ∈ w.failures, e.isCanceled = true
  | .exited .finished => w.requests.length = w.failures.length + 1 ∧ w.err = none
  | .exited .eof => w.requests.length = w.failures.length + 1 ∧ w.err = none
  | .exited .panicked => w.requests.length = w.failures.length + 1

/-- The fields that a `WriteAt` call and the update of `Downloaded` leave
alone. -/
def sameControl (w w' : Worker) : Prop :=
  w'.c.retryTimes = w.c.retryTimes ∧ w'.c.failed = w.c.failed ∧ w'.err = w.err ∧
    w'.pc = w.pc ∧ w'.requests = w.requests ∧ w'.failures = w.failures

/-- Requests against retries when every scan sees all chunks failed: one first
request, then one request per increment of `retryTimes`, which stops at 3. -/
def stuckInv (w : Worker) : Prop :=
  w.c.retryTimes ≤ 3 ∧
  match w.pc with
  | .request => w.requests.length = w.c.retryTimes
  | .exited .buildError => w.requests.length = w.c.retryTimes
  | .exited .exhausted => w.requests.length = 4
  | .exited .completed => w.requests.length ≤ w.c.retryTimes + 1
  | _ => w.requests.length = w.c.retryTimes + 1

/-- The attempt ends at the request with an error that is not a cancellation:
`client.Do` failed, or the status is neither 200 nor 206. -/
def failsAtRequest (resp : Except Err (Int × List Char)) : Prop :=
  match resp with
  | .error e => e.isCanceled = false
  | .ok (code, _) => code ≠ 200 ∧ code ≠ 206

/-- The error that an attempt ending at the request leaves in `err`. -/
def requestError (resp : Except Err (Int × List Char)) : Err :=
  match resp with
  | .error e => e
  | .ok (code, status) => .request code status

/-- Inputs of a worker whose attempts all end at the request: for each
attempt, what `client.Do` returned and the flags that the scan after it saw. -/
def stuckScript : List (Except Err (Int × List Char) × List Bool) → List Ev
  | [] => []
  | a :: rest => .request none a.1 :: .scan a.2 :: stuckScript rest

/-- The worker is about to make a request, after `k` increments of
`retryTimes`, on a chunk that is not complete. -/
def retrying (r : Bool) (k : Nat) (w : Worker) : Prop :=
  w.pc = .request ∧ w.c.retryTimes = k ∧ (r = true → 0 < w.c.remain)

/-- A worker that never saw all chunks failed has not touched `retryTimes` and
has not returned on exhaustion. -/
def freshRetry (w : Worker) : Prop :=
  w.c.retryTimes = 0 ∧ w.pc ≠ .exited .exhausted

/-- The condition under which `Resolve` takes its first branch. -/
def rangeStatus (resp : Response) : Prop :=
  resp.StatusCode = 206 ∨
    (resp.StatusCode = 200 ∧ resp.AcceptRanges = "bytes".toList ∧
      "bytes".toList.isPrefixOf resp.ContentRange = true)

/-- Value of a hexadecimal digit (`unhex` of `net/url`), if it is one. -/
def unhex (c : Char) : Option Nat :=
  if '0' ≤ c ∧ c ≤ '9' then some (c.toNat - '0'.toNat)
  else if 'a' ≤ c ∧ c ≤ 'f' then some (c.toNat - 'a'.toNat + 10)
  else if 'A' ≤ c ∧ c ≤ 'F' then some (c.toNat - 'A'.toNat + 10)
  else none

/-- `url.QueryUnescape` of the Go library on text whose escapes are below
`%80`: `%XX` becomes the character of that code, `+` becomes a space, and a
`%` that is not followed by two hexadecimal digits is an error (`none`). -/
def queryUnescape? : List Char → Option (List Char)
  | [] => some []
  | '%' :: a :: b :: rest =>
    match unhex a, unhex b, queryUnescape? rest with
    | some x, some y, some t => some (Char.ofNat (16 * x + y) :: t)
    | _, _, _ => none
  | '+' :: rest => (queryUnescape? rest).map (' ' :: ·)
  | c :: rest => if c = '%' then none else (queryUnescape? rest).map (c :: ·)

/-- The use of `url.QueryUnescape` in `Resolve`: the error is dropped and the
text is then empty. -/
def queryUnescape (s : List Char) : List Char :=
  (queryUnescape? s).getD []

/-- The name is not usable: empty, `/` or `.`. -/
def badName (n : List Char) : Prop :=
  n = [] ∨ n = ['/'] ∨ n = ['.']

/-- Whether a name is usable can be computed. -/
instance (n : List Char) : Decidable (badName n) := by
  unfold badName; infer_instance

/-- The file name as the specification words it: the result of the first of
the rules (a) `d`, (b) the URL-decoded base name of `p`, (c) `h` whose result
is not empty, `/` or `.`. When all three are, no rule applies (`none`). -/
def nameByRules (unescape : List Char → List Char) (d p h : List Char) :
    Option (List Char) :=
  [d, unescape (pathBase p), h].find? (fun n => decide (¬ badName n))

/-- Value of a run of decimal digits read from the left, continuing from `n`. -/
def digitsValue (n : Nat) (ds : List Char) : Nat :=
  ds.foldl (fun a c => a * 10 + (c.toNat - '0'.toNat)) n

/-- One or more decimal digits. -/
def isDigits (ds : List Char) : Prop :=
  ds ≠ [] ∧ ∀ c ∈ ds, '0' ≤ c ∧ c ≤ '9'

/-- Whether a text is a run of digits can be computed. -/
instance (ds : List Char) : Decidable (isDigits ds) := by
  unfold isDigits; infer_instance

/-- The integer that a text denotes: an optional sign `+` or `-`, then one or
more decimal digits, the value lying in the range of `int64`; `none` for every
other text. -/
def decimalInt64 (s : List Char) : Option Int :=
  let neg := s.head? = some '-'
  let ds := if s.head? = some '+' ∨ s.head? = some '-' then s.tail else s
  if isDigits ds then
    if neg then
      if digitsValue 0 ds ≤ 2 ^ 63 then some (-(digitsValue 0 ds : Int)) else none
    else
      if digitsValue 0 ds < 2 ^ 63 then some (digitsValue 0 ds : Int) else none
  else none

/-- Library functions for a probe response that carries neither
`Last-Modified` nor `Content-Disposition`: on such a response `Resolve` calls
`url.QueryUnescape` only. -/
def plainDeps : Deps :=
  { parseTime := fun _ => 0
    dispositionFilename := fun _ => []
    decodeWord := fun s => s
    queryUnescape := queryUnescape }

/-- A probe response with status 206 whose only header read by `Resolve` is
`Content-Range`. -/
def partialContent (contentRange : List Char) : Response :=
  { StatusCode := 206, Status := "206 Partial Content".toList, AcceptRanges := [],
    ContentRange := contentRange, ContentLength := [], LastModified := [],
    ContentDisposition := [] }

end Fetcher

/-! # Properties -/

namespace Fetcher

/-! ## Partitioner: tiling -/

theorem splitChunk_range_eq (size connections : Int) (hc : 1 ≤ connections) :
    splitChunk true size connections =
      some ((List.range connections.toNat).map
        (splitAt size connections (Int.tdiv size connections))) := by
  unfold splitChunk
  simp only [if_true]
  rw [if_neg (by omega)]

theorem map_range_getElem? {α : Type} (f : Nat → α) (n i : Nat) :
    ((List.range n).map f)[i]? = if i < n then some (f i) else none := by
  by_cases h : i < n
  · rw [if_pos h, List.getElem?_map, List.getElem?_range h]; rfl
  · rw [if_neg h, List.getElem?_map]
    have : (List.range n)[i]? = none := by
      apply List.getElem?_eq_none
      simp only [List.length_range]; omega
    rw [this]; rfl

theorem map_range_mem {α : Type} (f : Nat → α) (n : Nat) (a : α) :
    a ∈ (List.range n).map f ↔ ∃ i, i < n ∧ f i = a := by
  simp only [List.mem_map, List.mem_range]

theorem splitAt_begin (size connections k : Int) (i : Nat) :
    (splitAt size connections k i).Begin = k * (i : Int) := rfl

theorem splitAt_end_last (size connections k : Int) (i : Nat)
    (h : (i : Int) = connections - 1) :
    (splitAt size connections k i).End = size - 1 := by
  simp only [splitAt, newChunk, if_pos h]

theorem splitAt_end_inner (size connections k : Int) (i : Nat)
    (h : (i : Int) ≠ connections - 1) :
    (splitAt size connections k i).End = k * (i : Int) + k - 1 := by
  simp only [splitAt, newChunk, if_neg h]

theorem chunkSize_facts (size connections : Int) (hs : 0 ≤ size) (hc : 1 ≤ connections) :
    0 ≤ Int.tdiv size connections ∧
      Int.tdiv size connections * connections ≤ size ∧
      size < Int.tdiv size connections * connections + connections := by
  rw [Int.tdiv_eq_ediv hs (by omega)]
  have hpos : (0 : Int) < connections := by omega
  refine ⟨Int.ediv_nonneg hs (by omega), ?_, ?_⟩
  · exact Int.ediv_mul_le size (by omega)
  · have := Int.lt_ediv_add_one_mul_self size hpos
    linarith

end Fetcher

namespace Fetcher


theorem splitAt_end_lt_begin (size connections k : Int) (i j : Nat) (hk : 0 ≤ k)
    (hij : i < j) (hj : (j : Int) ≤ connections - 1) :
    (splitAt size connections k i).End < (splitAt size connections k j).Begin := by
  rw [splitAt_begin, splitAt_end_inner _ _ _ _ (by omega)]
  have h1 : ((i : Int) + 1) ≤ (j : Int) := by omega
  have h2 : k * ((i : Int) + 1) ≤ k * (j : Int) := mul_le_mul_of_nonneg_left h1 hk
  linarith

theorem splitAt_disjoint (size connections k : Int) (i j : Nat) (hk : 0 ≤ k)
    (hne : i ≠ j) (hi : (i : Int) ≤ connections - 1) (hj : (j : Int) ≤ connections - 1)
    (x : Int) :
    ¬ ((splitAt size connections k i).covers x ∧ (splitAt size connections k j).covers x) := by
  rintro ⟨⟨h1, h2⟩, ⟨h3, h4⟩⟩
  rcases Nat.lt_or_gt_of_ne hne with h | h
  · have := splitAt_end_lt_begin size connections k i j hk h hj
    omega
  · have := splitAt_end_lt_begin size connections k j i hk h hi
    omega

theorem splitAt_within (size connections k : Int) (i : Nat) (hk : 0 ≤ k)
    (hkc : k * connections ≤ size) (hi : (i : Int) ≤ connections - 1) (x : Int)
    (hx : (splitAt size connections k i).covers x) : 0 ≤ x ∧ x ≤ size - 1 := by
  obtain ⟨h1, h2⟩ := hx
  rw [splitAt_begin] at h1
  have hb : 0 ≤ k * (i : Int) := mul_nonneg hk (by omega)
  refine ⟨by omega, ?_⟩
  by_cases hl : (i : Int) = connections - 1
  · rw [splitAt_end_last _ _ _ _ hl] at h2; exact h2
  · rw [splitAt_end_inner _ _ _ _ hl] at h2
    have h3 : (i : Int) + 1 ≤ connections := by omega
    have h4 : k * ((i : Int) + 1) ≤ k * connections := mul_le_mul_of_nonneg_left h3 hk
    linarith

theorem splitAt_reaches (size connections k : Int) (hk : 0 ≤ k) (hc : 1 ≤ connections)
    (x : Int) (hx0 : 0 ≤ x) (hx1 : x ≤ size - 1) :
    ∃ i : Nat, (i : Int) ≤ connections - 1 ∧ (splitAt size connections k i).covers x := by
  by_cases hlast : k * (connections - 1) ≤ x
  · refine ⟨(connections - 1).toNat, ?_, ?_, ?_⟩
    · rw [Int.toNat_of_nonneg (by omega)]
    · rw [splitAt_begin, Int.toNat_of_nonneg (by omega)]; exact hlast
    · rw [splitAt_end_last _ _ _ _ (by rw [Int.toNat_of_nonneg (by omega)])]; exact hx1
  · have hlt : x < k * (connections - 1) := by omega
    have hkpos : 0 < k := by
      rcases eq_or_lt_of_le hk with h | h
      · rw [← h] at hlt; simp at hlt; omega
      · exact h
    have hq0 : 0 ≤ x / k := Int.ediv_nonneg hx0 hk
    have hq1 : x / k * k ≤ x := Int.ediv_mul_le x (by omega)
    have hq2 : x < (x / k + 1) * k := Int.lt_ediv_add_one_mul_self x hkpos
    have hq3 : x / k < connections - 1 := by
      by_contra hcon
      have h5 : connections - 1 ≤ x / k := by omega
      have h6 : k * (connections - 1) ≤ k * (x / k) := mul_le_mul_of_nonneg_left h5 hk
      linarith
    refine ⟨(x / k).toNat, ?_, ?_, ?_⟩
    · rw [Int.toNat_of_nonneg hq0]; omega
    · rw [splitAt_begin, Int.toNat_of_nonneg hq0]; linarith
    · rw [splitAt_end_inner _ _ _ _ (by rw [Int.toNat_of_nonneg hq0]; omega),
        Int.toNat_of_nonneg hq0]
      linarith

/-- C1. For a range-supported resource of size `size ≥ 0` and
`connections ≥ 1`, `splitChunk` returns exactly `connections` chunks: the
first begins at 0, each next one begins right after the end of the one before,
the last ends at `size - 1`; the byte intervals of two different chunks are
disjoint and together they are exactly `[0, size - 1]`. -/
theorem splitChunk_tiles (size connections : Int) (hs : 0 ≤ size)
    (hc : 1 ≤ connections) :
    ∃ cs, splitChunk true size connections = some cs ∧
      (cs.length : Int) = connections ∧
      (∀ c, cs.head? = some c → c.Begin = 0) ∧
      (∀ (i : Nat) (a b : chunk), cs[i]? = some a → cs[i + 1]? = some b → b.Begin = a.End + 1) ∧
      (∀ c, cs.getLast? = some c → c.End = size - 1) ∧
      (∀ (i j : Nat) (a b : chunk), i ≠ j → cs[i]? = some a → cs[j]? = some b →
        ∀ x, ¬ (a.covers x ∧ b.covers x)) ∧
      (∀ x, (∃ c ∈ cs, c.covers x) ↔ (0 ≤ x ∧ x ≤ size - 1)) := by
  obtain ⟨hk0, hk1, hk2⟩ := chunkSize_facts size connections hs hc
  have hn : ((connections.toNat : Nat) : Int) = connections := Int.toNat_of_nonneg (by omega)
  refine ⟨_, splitChunk_range_eq size connections hc, ?_, ?_, ?_, ?_, ?_, ?_⟩
  · simp only [List.length_map, List.length_range]; exact hn
  · intro c hc0
    rw [List.head?_eq_getElem?, map_range_getElem?] at hc0
    split at hc0
    · cases hc0; simp [splitAt_begin]
    · cases hc0
  · intro i a b ha hb
    rw [map_range_getElem?] at ha hb
    split at hb
    · rename_i hlt
      rw [if_pos (by omega)] at ha
      cases ha; cases hb
      rw [splitAt_begin, splitAt_end_inner _ _ _ _ (by omega)]
      push_cast; ring
    · cases hb
  · intro c hl
    rw [List.getLast?_eq_getElem?, map_range_getElem?] at hl
    simp only [List.length_map, List.length_range] at hl
    split at hl
    · cases hl
      exact splitAt_end_last _ _ _ _ (by omega)
    · cases hl
  · intro i j a b hne ha hb x
    rw [map_range_getElem?] at ha hb
    split at ha
    · split at hb
      · cases ha; cases hb
        exact splitAt_disjoint size connections _ i j hk0 hne (by omega) (by omega) x
      · cases hb
    · cases ha
  · intro x
    constructor
    · rintro ⟨c, hmem, hcov⟩
      rw [map_range_mem] at hmem
      obtain ⟨i, hi, rfl⟩ := hmem
      exact splitAt_within size connections _ i hk0 hk1 (by omega) x hcov
    · rintro ⟨hx0, hx1⟩
      obtain ⟨i, hi, hcov⟩ := splitAt_reaches size connections _ hk0 hc x hx0 hx1
      exact ⟨_, (map_range_mem _ _ _).2 ⟨i, by omega, rfl⟩, hcov⟩

end Fetcher

namespace Fetcher

/-- Witness of C1 at the example of the specification: size 10000 and four
connections give `[0,2499] [2500,4999] [5000,7499] [7500,9999]`. -/
theorem splitChunk_tiles_witness :
    (splitChunk true 10000 4).map (List.map fun c => (c.Begin, c.End))
        = some [(0, 2499), (2500, 4999), (5000, 7499), (7500, 9999)] ∧
      ∃ cs, splitChunk true 10000 4 = some cs ∧ (cs.length : Int) = 4 ∧
        (∀ x, (∃ c ∈ cs, c.covers x) ↔ (0 ≤ x ∧ x ≤ 10000 - 1)) :=
  ⟨by decide,
    match splitChunk_tiles 10000 4 (by decide) (by decide) with
    | ⟨cs, h1, h2, _, _, _, _, h7⟩ => ⟨cs, h1, h2, h7⟩⟩

/-- C2, as stated, fails: a range-supported resource of size 3 split over 4
connections gets three chunks `[0, -1]`, whose begin exceeds their end (and so
does the single chunk of an empty resource). -/
theorem splitChunk_begin_gt_end :
    splitChunk true 3 4
        = some [newChunk 0 (-1), newChunk 0 (-1), newChunk 0 (-1), newChunk 0 2] ∧
      splitChunk true 0 1 = some [newChunk 0 (-1)] ∧
      (newChunk 0 (-1)).End < (newChunk 0 (-1)).Begin := by
  decide

/-- C2, amended. For `size ≥ 0` and `connections ≥ 1`, `splitChunk` returns
chunks with `Begin ≤ End + 1` (a chunk is at worst empty), and with
`Begin ≤ End` when the resource is not range-supported or when
`connections ≤ size`. -/
theorem splitChunk_begin_le_end (range : Bool) (size connections : Int) (hs : 0 ≤ size)
    (hc : 1 ≤ connections) :
    ∃ cs, splitChunk range size connections = some cs ∧
      (∀ c ∈ cs, c.Begin ≤ c.End + 1) ∧
      ((range = false ∨ connections ≤ size) → ∀ c ∈ cs, c.Begin ≤ c.End) := by
  cases range with
  | false =>
    refine ⟨[newChunk 0 0], rfl, ?_, ?_⟩
    · intro c hmem
      simp only [List.mem_singleton] at hmem
      subst hmem; decide
    · intro _ c hmem
      simp only [List.mem_singleton] at hmem
      subst hmem; decide
  | true =>
    obtain ⟨hk0, hk1, _⟩ := chunkSize_facts size connections hs hc
    have hn : ((connections.toNat : Nat) : Int) = connections :=
      Int.toNat_of_nonneg (by omega)
    have key : ∀ i : Nat, i < connections.toNat → ∀ k : Int, 0 ≤ k → k * connections ≤ size →
        (splitAt size connections k i).Begin ≤ (splitAt size connections k i).End + 1 ∧
        (1 ≤ k → (splitAt size connections k i).Begin ≤ (splitAt size connections k i).End) := by
      intro i hi k hk hkc
      rw [splitAt_begin]
      by_cases hl : (i : Int) = connections - 1
      · rw [splitAt_end_last _ _ _ _ hl, hl]
        have : k * connections = k * (connections - 1) + k := by ring
        constructor
        · linarith
        · intro h1; linarith
      · rw [splitAt_end_inner _ _ _ _ hl]
        constructor
        · linarith
        · intro h1; linarith
    refine ⟨_, splitChunk_range_eq size connections hc, ?_, ?_⟩
    · intro c hmem
      rw [map_range_mem] at hmem
      obtain ⟨i, hi, rfl⟩ := hmem
      exact (key i hi _ hk0 hk1).1
    · intro hor c hmem
      rw [map_range_mem] at hmem
      obtain ⟨i, hi, rfl⟩ := hmem
      have hle : connections ≤ size := by
        rcases hor with h | h
        · cases h
        · exact h
      have h1 : 1 ≤ Int.tdiv size connections := by
        rw [Int.tdiv_eq_ediv hs (by omega)]
        exact Int.le_ediv_of_mul_le (by omega) (by omega)
      exact (key i hi _ hk0 hk1).2 h1

/-- Witness of the amended C2 at size 10 and 3 connections. -/
theorem splitChunk_begin_le_end_witness :
    ∃ cs, splitChunk true 10 3 = some cs ∧
      (∀ c ∈ cs, c.Begin ≤ c.End + 1) ∧
      (∀ c ∈ cs, c.Begin ≤ c.End) :=
  match splitChunk_begin_le_end true 10 3 (by decide) (by decide) with
  | ⟨cs, h1, h2, h3⟩ => ⟨cs, h1, h2, h3 (Or.inr (by decide))⟩

end Fetcher

namespace Fetcher

/-! ## Worker: what a step leaves unchanged -/

theorem loopHead_c (r : Bool) (w : Worker) : (loopHead r w).c = w.c := by
  unfold loopHead; split_ifs <;> rfl

theorem loopHead_writes (r : Bool) (w : Worker) : (loopHead r w).writes = w.writes := by
  unfold loopHead; split_ifs <;> rfl

theorem loopHead_requests (r : Bool) (w : Worker) :
    (loopHead r w).requests = w.requests := by
  unfold loopHead; split_ifs <;> rfl

theorem onError_writes (r : Bool) (w : Worker) (e : Err) :
    (onError r w e).writes = w.writes := by
  unfold onError; split_ifs
  · rfl
  · rw [loopHead_writes]

theorem onError_requests (r : Bool) (w : Worker) (e : Err) :
    (onError r w e).requests = w.requests := by
  unfold onError; split_ifs
  · rfl
  · rw [loopHead_requests]

theorem onError_bounds (r : Bool) (w : Worker) (e : Err) :
    (onError r w e).c.Begin = w.c.Begin ∧ (onError r w e).c.End = w.c.End ∧
      (onError r w e).c.Downloaded = w.c.Downloaded ∧
      (onError r w e).c.retryTimes = w.c.retryTimes := by
  unfold onError; split_ifs
  · exact ⟨rfl, rfl, rfl, rfl⟩
  · rw [loopHead_c]; exact ⟨rfl, rfl, rfl, rfl⟩

theorem readTail_writes (r : Bool) (w : Worker) (re : Option ReadErr) :
    (readTail r w re).writes = w.writes := by
  unfold readTail
  split
  · rfl
  · rfl
  · rw [onError_writes]

theorem readTail_bounds (r : Bool) (w : Worker) (re : Option ReadErr) :
    (readTail r w re).c.Begin = w.c.Begin ∧ (readTail r w re).c.End = w.c.End ∧
      (readTail r w re).c.Downloaded = w.c.Downloaded ∧
      (readTail r w re).c.retryTimes = w.c.retryTimes := by
  unfold readTail
  split
  · exact ⟨rfl, rfl, rfl, rfl⟩
  · exact ⟨rfl, rfl, rfl, rfl⟩
  · exact onError_bounds r w _

/-- A property kept by every step holds after every run. -/
theorem run_induct (r : Bool) (P : Worker → Prop)
    (hstep : ∀ w ev, P w → P (step r w ev)) (w : Worker) (evs : List Ev) (h : P w) :
    P (run r w evs) := by
  induction evs generalizing w with
  | nil => exact h
  | cons ev evs ih => exact ih (step r w ev) (hstep w ev h)

theorem run_append (r : Bool) (w : Worker) (xs ys : List Ev) :
    run r w (xs ++ ys) = run r (run r w xs) ys := by
  unfold run; rw [List.foldl_append]


theorem boundsInv_of_eq (c0 : chunk) (w w' : Worker) (h : boundsInv c0 w)
    (hb : w'.c.Begin = w.c.Begin) (he : w'.c.End = w.c.End)
    (hd : w'.c.Downloaded = w.c.Downloaded) (hw : w'.writes = w.writes) :
    boundsInv c0 w' := by
  obtain ⟨h1, h2, h3, h4, h5⟩ := h
  refine ⟨by rw [hb, h1], by rw [he, h2], by rw [hd]; exact h3, by rw [hd]; exact h4, ?_⟩
  rw [hw]; exact h5

theorem stepScan_boundsInv (c0 : chunk) (w : Worker) (o : List Bool)
    (h : boundsInv c0 w) : boundsInv c0 (stepScan w o) := by
  simp only [stepScan]
  split_ifs <;> exact boundsInv_of_eq c0 w _ h rfl rfl rfl rfl

theorem stepRequest_boundsInv (c0 : chunk) (w : Worker) (b : Option Err)
    (resp : Except Err (Int × List Char)) (h : boundsInv c0 w) :
    boundsInv c0 (stepRequest true w b resp) := by
  cases b with
  | some e => exact boundsInv_of_eq c0 w _ h rfl rfl rfl rfl
  | none =>
    cases resp with
    | error e =>
      simp only [stepRequest, ↓reduceIte]
      exact boundsInv_of_eq c0 w _ h (onError_bounds _ _ _).1 (onError_bounds _ _ _).2.1
        (onError_bounds _ _ _).2.2.1 (by rw [onError_writes])
    | ok p =>
      obtain ⟨code, status⟩ := p
      simp only [stepRequest, ↓reduceIte]
      split_ifs
      · exact boundsInv_of_eq c0 w _ h (onError_bounds _ _ _).1 (onError_bounds _ _ _).2.1
          (onError_bounds _ _ _).2.2.1 (by rw [onError_writes])
      · exact boundsInv_of_eq c0 w _ h rfl rfl rfl rfl


theorem boundsInv_remain (c0 : chunk) (w : Worker) (h : boundsInv c0 w) :
    0 ≤ w.c.remain ∧ w.c.remain = c0.End - c0.Begin + 1 - w.c.Downloaded := by
  obtain ⟨h1, h2, h3, h4, _⟩ := h
  unfold chunk.remain
  rw [h1, h2]
  constructor <;> omega

/-- Number of bytes that one turn of the read loop writes on a range-supported
chunk: `n`, cut down to `remain`. -/
theorem stepRead_eq (w : Worker) (n : Nat) (re : Option ReadErr) (we : Option Err)
    (hn : 0 < n) (hrem : 0 ≤ w.c.remain) :
    stepRead true w n re we =
      match we with
      | some e =>
        onError true
          { w with writes := w.writes ++
              [(w.c.Begin + w.c.Downloaded, min (n : Int) w.c.remain, false)] } e
      | none =>
        if w.c.remain < (n : Int) then
          onSuccess .finished
            { w with c := { w.c with Downloaded := w.c.Downloaded + min (n : Int) w.c.remain },
                     writes := w.writes ++
                      [(w.c.Begin + w.c.Downloaded, min (n : Int) w.c.remain, true)] }
        else
          readTail true
            { w with c := { w.c with Downloaded := w.c.Downloaded + min (n : Int) w.c.remain },
                     writes := w.writes ++
                      [(w.c.Begin + w.c.Downloaded, min (n : Int) w.c.remain, true)] } re := by
  have hn' : (0 : Int) ≤ (n : Int) := by omega
  by_cases hlt : w.c.remain < (n : Int)
  · have hmin : min (n : Int) w.c.remain = w.c.remain := min_eq_right (le_of_lt hlt)
    cases we <;>
      simp [stepRead, hn, hlt, hmin, not_lt.mpr hrem]
  · have hmin : min (n : Int) w.c.remain = (n : Int) := min_eq_left (not_lt.mp hlt)
    cases we <;>
      simp [stepRead, hn, hlt, hmin]


theorem boundsInv_write (c0 : chunk) (w : Worker) (n : Nat) (ok : Bool)
    (h : boundsInv c0 w) :
    boundsInv c0
      { w with writes := w.writes ++
          [(w.c.Begin + w.c.Downloaded, min (n : Int) w.c.remain, ok)] } := by
  obtain ⟨hrem, hremeq⟩ := boundsInv_remain c0 w h
  obtain ⟨h1, h2, h3, h4, h5⟩ := h
  refine ⟨h1, h2, h3, h4, ?_⟩
  intro wr hmem
  simp only [List.mem_append, List.mem_singleton] at hmem
  rcases hmem with hmem | rfl
  · exact h5 wr hmem
  · have hm0 : 0 ≤ min (n : Int) w.c.remain := le_min (by omega) hrem
    have hm1 : min (n : Int) w.c.remain ≤ w.c.remain := min_le_right _ _
    simp only
    rw [h1]
    refine ⟨hm0, by omega, by omega⟩

theorem boundsInv_advance (c0 : chunk) (w : Worker) (n : Nat) (h : boundsInv c0 w) :
    boundsInv c0
      { w with c := { w.c with Downloaded := w.c.Downloaded + min (n : Int) w.c.remain },
               writes := w.writes ++
                [(w.c.Begin + w.c.Downloaded, min (n : Int) w.c.remain, true)] } := by
  obtain ⟨hrem, hremeq⟩ := boundsInv_remain c0 w h
  have hw := boundsInv_write c0 w n true h
  obtain ⟨h1, h2, h3, h4, h5⟩ := hw
  have hm0 : 0 ≤ min (n : Int) w.c.remain := le_min (by omega) hrem
  have hm1 : min (n : Int) w.c.remain ≤ w.c.remain := min_le_right _ _
  refine ⟨h1, h2, ?_, ?_, h5⟩
  · simp only; simp only at h3; omega
  · simp only; simp only at h4; omega

theorem stepRead_boundsInv (c0 : chunk) (w : Worker) (n : Nat) (re : Option ReadErr)
    (we : Option Err) (h : boundsInv c0 w) : boundsInv c0 (stepRead true w n re we) := by
  by_cases hn : 0 < n
  · rw [stepRead_eq w n re we hn (boundsInv_remain c0 w h).1]
    cases we with
    | some e =>
      exact boundsInv_of_eq c0 _ _ (boundsInv_write c0 w n false h) (onError_bounds _ _ _).1
        (onError_bounds _ _ _).2.1 (onError_bounds _ _ _).2.2.1 (by rw [onError_writes])
    | none =>
      simp only
      split_ifs
      · exact boundsInv_of_eq c0 _ _ (boundsInv_advance c0 w n h) rfl rfl rfl rfl
      · exact boundsInv_of_eq c0 _ _ (boundsInv_advance c0 w n h) (readTail_bounds _ _ _).1
          (readTail_bounds _ _ _).2.1 (readTail_bounds _ _ _).2.2.1 (by rw [readTail_writes])
  · simp only [stepRead, if_neg hn]
    exact boundsInv_of_eq c0 w _ h (readTail_bounds _ _ _).1
      (readTail_bounds _ _ _).2.1 (readTail_bounds _ _ _).2.2.1 (by rw [readTail_writes])

theorem step_boundsInv (c0 : chunk) (w : Worker) (ev : Ev) (h : boundsInv c0 w) :
    boundsInv c0 (step true w ev) := by
  unfold step
  split
  · exact stepScan_boundsInv c0 w _ h
  · exact stepRequest_boundsInv c0 w _ _ h
  · exact stepRead_boundsInv c0 w _ _ _ h
  · exact h

theorem enter_boundsInv (c : chunk) (h0 : 0 ≤ c.Downloaded)
    (h1 : c.Downloaded ≤ c.End - c.Begin + 1) : boundsInv c (enter true c) := by
  unfold enter
  refine ⟨by rw [loopHead_c], by rw [loopHead_c], by rw [loopHead_c]; exact h0,
    by rw [loopHead_c]; exact h1, ?_⟩
  rw [loopHead_writes]
  intro wr hmem
  cases hmem

/-- C4. A range-supported chunk whose worker starts with
`0 ≤ Downloaded ≤ End - Begin + 1` keeps these bounds after every input,
whatever the attempts and the reads are: the chunk bounds do not move, every
byte offset of every `WriteAt` call lies in `[Begin, End]`, and a read of
`n > 0` bytes whose write succeeds writes `min n remain` bytes at
`Begin + Downloaded` and adds as many to `Downloaded`. -/
theorem fetchChunk_downloaded_bounds (c : chunk) (evs : List Ev)
    (h0 : 0 ≤ c.Downloaded) (h1 : c.Downloaded ≤ c.End - c.Begin + 1) :
    (fetchChunk true c evs).c.Begin = c.Begin ∧
      (fetchChunk true c evs).c.End = c.End ∧
      0 ≤ (fetchChunk true c evs).c.Downloaded ∧
      (fetchChunk true c evs).c.Downloaded ≤ c.End - c.Begin + 1 ∧
      (∀ wr ∈ (fetchChunk true c evs).writes, ∀ x : Int,
        wr.1 ≤ x → x < wr.1 + wr.2.1 → c.Begin ≤ x ∧ x ≤ c.End) ∧
      (∀ (n : Nat) (re : Option ReadErr), (fetchChunk true c evs).pc = .streaming → 0 < n →
        (step true (fetchChunk true c evs) (.read n re none)).c.Downloaded
            = (fetchChunk true c evs).c.Downloaded
              + min (n : Int) (fetchChunk true c evs).c.remain ∧
          (step true (fetchChunk true c evs) (.read n re none)).writes
            = (fetchChunk true c evs).writes ++
              [(c.Begin + (fetchChunk true c evs).c.Downloaded,
                min (n : Int) (fetchChunk true c evs).c.remain, true)]) := by
  have hinv : boundsInv c (fetchChunk true c evs) :=
    run_induct true (boundsInv c) (fun w ev h => step_boundsInv c w ev h) _ evs
      (enter_boundsInv c h0 h1)
  obtain ⟨hrem, _⟩ := boundsInv_remain c _ hinv
  obtain ⟨g1, g2, g3, g4, g5⟩ := hinv
  refine ⟨g1, g2, g3, g4, ?_, ?_⟩
  · intro wr hmem x hx0 hx1
    obtain ⟨_, hb, he⟩ := g5 wr hmem
    constructor <;> omega
  · intro n re hpc hn
    have hstep : step true (fetchChunk true c evs) (.read n re none)
        = stepRead true (fetchChunk true c evs) n re none := by
      unfold step; rw [hpc]
    rw [hstep, stepRead_eq _ n re none hn hrem, ← g1]
    simp only
    split_ifs
    · exact ⟨rfl, rfl⟩
    · exact ⟨(readTail_bounds _ _ _).2.2.1, by rw [readTail_writes]⟩

/-- Witness of C4: a chunk `[0, 9]` served 12 bytes in one read. -/
theorem fetchChunk_downloaded_bounds_witness :
    (fetchChunk true (newChunk 0 9)
        [.request none (.ok (206, [])), .read 12 none none]).c.Downloaded = 10 ∧
      (fetchChunk true (newChunk 0 9)
        [.request none (.ok (206, [])), .read 12 none none]).c.Downloaded ≤ 9 - 0 + 1 :=
  ⟨by decide,
    (fetchChunk_downloaded_bounds (newChunk 0 9)
      [.request none (.ok (206, [])), .read 12 none none] (by decide) (by decide)).2.2.2.1⟩

end Fetcher

namespace Fetcher

/-! ## Worker: how it can return -/


theorem loopHead_exitInv (w : Worker) (h : w.c.failed = true → w.err ≠ none) :
    exitInv (loopHead true w) := by
  unfold loopHead
  split_ifs with h1 h2
  · simp only [exitInv]; exact h1.2
  · simp only [exitInv]; exact ⟨h h2, h2⟩
  · simp only [exitInv]

theorem onError_exitInv (w : Worker) (e : Err) : exitInv (onError true w e) := by
  unfold onError
  split_ifs
  · simp [exitInv]
  · apply loopHead_exitInv; intro _; simp

theorem stepScan_exitInv (w : Worker) (o : List Bool) (hpc : w.pc = .scan)
    (h : exitInv w) : exitInv (stepScan w o) := by
  simp only [exitInv, hpc] at h
  simp only [stepScan]
  split_ifs
  · simp only [exitInv]; exact h.1
  · simp only [exitInv]
  · simp only [exitInv]

theorem stepRequest_exitInv (w : Worker) (b : Option Err)
    (resp : Except Err (Int × List Char)) : exitInv (stepRequest true w b resp) := by
  cases b with
  | some e => simp [stepRequest, exitInv]
  | none =>
    cases resp with
    | error e => simp only [stepRequest, ↓reduceIte]; exact onError_exitInv _ _
    | ok p =>
      obtain ⟨code, status⟩ := p
      simp only [stepRequest, ↓reduceIte]
      split_ifs
      · exact onError_exitInv _ _
      · simp only [exitInv]

theorem readTail_exitInv (w : Worker) (re : Option ReadErr) (hpc : w.pc = .streaming) :
    exitInv (readTail true w re) := by
  unfold readTail
  split
  · simp only [exitInv, hpc]
  · simp only [onSuccess, exitInv]
  · exact onError_exitInv _ _

theorem stepRead_exitInv (w : Worker) (n : Nat) (re : Option ReadErr) (we : Option Err)
    (hpc : w.pc = .streaming) (hrem : 0 ≤ w.c.remain) :
    exitInv (stepRead true w n re we) := by
  by_cases hn : 0 < n
  · rw [stepRead_eq w n re we hn hrem]
    cases we with
    | some e => exact onError_exitInv _ _
    | none =>
      simp only
      split_ifs with hlt
      · simp only [onSuccess, exitInv]
        rw [min_eq_right (le_of_lt hlt)]
        unfold chunk.remain; simp only; omega
      · exact readTail_exitInv _ re hpc
  · simp only [stepRead, if_neg hn]
    exact readTail_exitInv w re hpc

theorem step_exitInv (c0 : chunk) (w : Worker) (ev : Ev)
    (h : boundsInv c0 w ∧ exitInv w) : boundsInv c0 (step true w ev) ∧ exitInv (step true w ev) := by
  refine ⟨step_boundsInv c0 w ev h.1, ?_⟩
  unfold step
  split
  · rename_i hpc; exact stepScan_exitInv w _ hpc h.2
  · exact stepRequest_exitInv w _ _
  · rename_i hpc; exact stepRead_exitInv w _ _ _ hpc (boundsInv_remain c0 w h.1).1
  · exact h.2

theorem enter_exitInv (c : chunk) : exitInv (enter true c) := by
  unfold enter
  apply loopHead_exitInv
  intro h; cases h

theorem fetchChunk_inv (c : chunk) (evs : List Ev)
    (h0 : 0 ≤ c.Downloaded) (h1 : c.Downloaded ≤ c.End - c.Begin + 1) :
    boundsInv c (fetchChunk true c evs) ∧ exitInv (fetchChunk true c evs) :=
  run_induct true (fun w => boundsInv c w ∧ exitInv w) (fun w ev h => step_exitInv c w ev h) _ evs
    ⟨enter_boundsInv c h0 h1, enter_exitInv c⟩

end Fetcher

namespace Fetcher

/-! ## Worker: the offsets written -/



theorem written_append (ws : List (Int × Int × Bool)) (o l : Int) (b : Bool) (x : Int) :
    written (ws ++ [(o, l, b)]) x ↔ written ws x ∨ (b = true ∧ o ≤ x ∧ x < o + l) := by
  unfold written
  constructor
  · rintro ⟨wr, hmem, h⟩
    simp only [List.mem_append, List.mem_singleton] at hmem
    rcases hmem with hmem | rfl
    · exact Or.inl ⟨wr, hmem, h⟩
    · exact Or.inr h
  · rintro (⟨wr, hmem, h⟩ | h)
    · exact ⟨wr, List.mem_append_left _ hmem, h⟩
    · exact ⟨(o, l, b), List.mem_append_right _ (List.mem_singleton.2 rfl), h⟩

theorem coverInv_of_eq (c0 : chunk) (w w' : Worker) (h : coverInv c0 w)
    (hd : w'.c.Downloaded = w.c.Downloaded) (hw : w'.writes = w.writes) :
    coverInv c0 w' := by
  unfold coverInv
  rw [hd, hw]; exact h

theorem coverInv_write_failed (c0 : chunk) (w : Worker) (o l : Int) (h : coverInv c0 w) :
    coverInv c0 { w with writes := w.writes ++ [(o, l, false)] } := by
  refine ⟨h.1, fun x => ?_⟩
  rw [written_append]
  simp only [Bool.false_eq_true, false_and, or_false]
  exact h.2 x

theorem coverInv_advance (c0 : chunk) (w : Worker) (n : Nat) (hb : boundsInv c0 w)
    (h : coverInv c0 w) :
    coverInv c0
      { w with c := { w.c with Downloaded := w.c.Downloaded + min (n : Int) w.c.remain },
               writes := w.writes ++
                [(w.c.Begin + w.c.Downloaded, min (n : Int) w.c.remain, true)] } := by
  obtain ⟨hrem, _⟩ := boundsInv_remain c0 w hb
  have hm0 : 0 ≤ min (n : Int) w.c.remain := le_min (by omega) hrem
  have hB : w.c.Begin = c0.Begin := hb.1
  obtain ⟨hmono, hcov⟩ := h
  refine ⟨by simp only; omega, fun x => ?_⟩
  rw [written_append, hcov x, hB]
  simp only [true_and]
  constructor
  · rintro (⟨h1, h2⟩ | ⟨h1, h2⟩)
    · exact ⟨h1, by omega⟩
    · exact ⟨by omega, by omega⟩
  · rintro ⟨h1, h2⟩
    by_cases hx : x < c0.Begin + w.c.Downloaded
    · exact Or.inl ⟨h1, hx⟩
    · exact Or.inr ⟨by omega, by omega⟩

theorem stepScan_coverInv (c0 : chunk) (w : Worker) (o : List Bool)
    (h : coverInv c0 w) : coverInv c0 (stepScan w o) := by
  simp only [stepScan]
  split_ifs <;> exact coverInv_of_eq c0 w _ h rfl rfl

theorem stepRequest_coverInv (c0 : chunk) (w : Worker) (b : Option Err)
    (resp : Except Err (Int × List Char)) (h : coverInv c0 w) :
    coverInv c0 (stepRequest true w b resp) := by
  cases b with
  | some e => exact coverInv_of_eq c0 w _ h rfl rfl
  | none =>
    cases resp with
    | error e =>
      simp only [stepRequest, ↓reduceIte]
      exact coverInv_of_eq c0 w _ h (onError_bounds _ _ _).2.2.1 (by rw [onError_writes])
    | ok p =>
      obtain ⟨code, status⟩ := p
      simp only [stepRequest, ↓reduceIte]
      split_ifs
      · exact coverInv_of_eq c0 w _ h (onError_bounds _ _ _).2.2.1 (by rw [onError_writes])
      · exact coverInv_of_eq c0 w _ h rfl rfl

theorem stepRead_coverInv (c0 : chunk) (w : Worker) (n : Nat) (re : Option ReadErr)
    (we : Option Err) (hb : boundsInv c0 w) (h : coverInv c0 w) :
    coverInv c0 (stepRead true w n re we) := by
  by_cases hn : 0 < n
  · rw [stepRead_eq w n re we hn (boundsInv_remain c0 w hb).1]
    cases we with
    | some e =>
      exact coverInv_of_eq c0 _ _ (coverInv_write_failed c0 w _ _ h)
        (onError_bounds _ _ _).2.2.1 (by rw [onError_writes])
    | none =>
      simp only
      split_ifs
      · exact coverInv_of_eq c0 _ _ (coverInv_advance c0 w n hb h) rfl rfl
      · exact coverInv_of_eq c0 _ _ (coverInv_advance c0 w n hb h)
          (readTail_bounds _ _ _).2.2.1 (by rw [readTail_writes])
  · simp only [stepRead, if_neg hn]
    exact coverInv_of_eq c0 w _ h (readTail_bounds _ _ _).2.2.1 (by rw [readTail_writes])

theorem step_coverInv (c0 : chunk) (w : Worker) (ev : Ev) (hb : boundsInv c0 w)
    (h : coverInv c0 w) : coverInv c0 (step true w ev) := by
  unfold step
  split
  · exact stepScan_coverInv c0 w _ h
  · exact stepRequest_coverInv c0 w _ _ h
  · exact stepRead_coverInv c0 w _ _ _ hb h
  · exact h

theorem enter_coverInv (c : chunk) : coverInv c (enter true c) := by
  unfold enter
  refine ⟨by rw [loopHead_c], fun x => ?_⟩
  rw [loopHead_writes, loopHead_c]
  simp only [written, List.not_mem_nil, false_and, exists_false, false_iff]
  omega

theorem fetchChunk_coverInv (c : chunk) (evs : List Ev)
    (h0 : 0 ≤ c.Downloaded) (h1 : c.Downloaded ≤ c.End - c.Begin + 1) :
    coverInv c (fetchChunk true c evs) :=
  (run_induct true (fun w => boundsInv c w ∧ coverInv c w)
    (fun w ev h => ⟨step_boundsInv c w ev h.1, step_coverInv c w ev h.1 h.2⟩) _ evs
    ⟨enter_boundsInv c h0 h1, enter_coverInv c⟩).2

end Fetcher

namespace Fetcher

/-! ## Transfer: completion -/

theorem splitAt_fresh (size connections k : Int) (i : Nat) (hk : 0 ≤ k)
    (hkc : k * connections ≤ size) (_hi : (i : Int) ≤ connections - 1) :
    (splitAt size connections k i).Downloaded = 0 ∧
      (splitAt size connections k i).Begin ≤ (splitAt size connections k i).End + 1 := by
  refine ⟨rfl, ?_⟩
  rw [splitAt_begin]
  by_cases hl : (i : Int) = connections - 1
  · rw [splitAt_end_last _ _ _ _ hl, hl]
    have : k * connections = k * (connections - 1) + k := by ring
    linarith
  · rw [splitAt_end_inner _ _ _ _ hl]
    linarith

/-- C3, as stated, fails: the single chunk `[0, 9]` of a resource of size 10,
answered 206 with a body of 4 bytes and then end-of-stream, makes `fetchChunk`
return `nil` with 6 bytes remaining and only `[0, 3]` written. -/
theorem fetchChunk_short_body_returns_nil :
    splitChunk true 10 1 = some [newChunk 0 9] ∧
      (fetchChunk true (newChunk 0 9)
        [.request none (.ok (206, [])), .read 4 (some .eof) none]).pc = .exited .eof ∧
      (fetchChunk true (newChunk 0 9)
        [.request none (.ok (206, [])), .read 4 (some .eof) none]).err = none ∧
      (fetchChunk true (newChunk 0 9)
        [.request none (.ok (206, [])), .read 4 (some .eof) none]).c.remain = 6 ∧
      (fetchChunk true (newChunk 0 9)
        [.request none (.ok (206, [])), .read 4 (some .eof) none]).writes = [(0, 4, true)] := by
  decide

/-- C3, amended. For a range-supported transfer started from freshly
partitioned chunks and whatever inputs each worker gets: a worker that returned
without error other than on an end-of-stream has `remain() = 0`; and when every
chunk has `remain() = 0`, the byte offsets written are exactly those of
`[0, size - 1]`. -/
theorem transfer_complete (size connections : Int) (hs : 0 ≤ size) (hc : 1 ≤ connections)
    (evs : Nat → List Ev) :
    ∃ cs, splitChunk true size connections = some cs ∧
      (∀ (i : Nat) (c : chunk) (x : Exit), cs[i]? = some c →
        (fetchChunk true c (evs i)).pc = .exited x →
        (fetchChunk true c (evs i)).err = none → x ≠ .eof →
        (fetchChunk true c (evs i)).c.remain = 0) ∧
      ((∀ (i : Nat) (c : chunk), cs[i]? = some c →
          (fetchChunk true c (evs i)).c.remain = 0) →
        ∀ x : Int, (0 ≤ x ∧ x ≤ size - 1) ↔
          ∃ (i : Nat) (c : chunk), cs[i]? = some c ∧
            written (fetchChunk true c (evs i)).writes x) := by
  obtain ⟨hk0, hk1, _⟩ := chunkSize_facts size connections hs hc
  have hn : ((connections.toNat : Nat) : Int) = connections :=
    Int.toNat_of_nonneg (by omega)
  refine ⟨_, splitChunk_range_eq size connections hc, ?_, ?_⟩
  · intro i c x hget hpc herr hx
    rw [map_range_getElem?] at hget
    split at hget
    · cases hget
      obtain ⟨hd, hbe⟩ := splitAt_fresh size connections _ i hk0 hk1 (by omega)
      obtain ⟨hb, he⟩ := fetchChunk_inv (splitAt size connections (Int.tdiv size connections) i)
        (evs i) (by rw [hd]) (by rw [hd]; omega)
      have hrem := (boundsInv_remain _ _ hb).1
      simp only [exitInv, hpc] at he
      cases x with
      | completed => omega
      | finished => exact he
      | eof => exact absurd rfl hx
      | exhausted => exact absurd herr he
      | buildError => exact absurd herr he
      | canceled => exact absurd herr he
      | panicked => exact absurd he id
    · cases hget
  · intro hall x
    have hchunk : ∀ i : Nat, (i : Int) ≤ connections - 1 →
        (written (fetchChunk true (splitAt size connections (Int.tdiv size connections) i)
            (evs i)).writes x ↔
          (splitAt size connections (Int.tdiv size connections) i).covers x) := by
      intro i hi
      obtain ⟨hd, hbe⟩ := splitAt_fresh size connections _ i hk0 hk1 hi
      have hb := (fetchChunk_inv (splitAt size connections (Int.tdiv size connections) i)
        (evs i) (by rw [hd]) (by rw [hd]; omega)).1
      have hcv := fetchChunk_coverInv (splitAt size connections (Int.tdiv size connections) i)
        (evs i) (by rw [hd]) (by rw [hd]; omega)
      have hr := hall i _ (by rw [map_range_getElem?, if_pos (by omega)])
      rw [(boundsInv_remain _ _ hb).2] at hr
      rw [hcv.2 x, hd]
      unfold chunk.covers
      constructor
      · rintro ⟨h1, h2⟩; constructor <;> omega
      · rintro ⟨h1, h2⟩; constructor <;> omega
    constructor
    · rintro ⟨hx0, hx1⟩
      obtain ⟨i, hi, hcov⟩ := splitAt_reaches size connections _ hk0 hc x hx0 hx1
      exact ⟨i, _, by rw [map_range_getElem?, if_pos (by omega)], (hchunk i hi).2 hcov⟩
    · rintro ⟨i, c, hget, hw⟩
      rw [map_range_getElem?] at hget
      split at hget
      · cases hget
        exact splitAt_within size connections _ i hk0 hk1 (by omega) x
          ((hchunk i (by omega)).1 hw)
      · cases hget

/-- Witness of the amended C3: size 10 over 2 connections; the worker of the
first chunk, served 6 bytes for its 5, returns with `finished` set and nothing
left to download. -/
theorem transfer_complete_witness :
    (fetchChunk true (newChunk 0 4)
      [.request none (.ok (206, [])), .read 6 none none]).c.remain = 0 := by
  obtain ⟨cs, h1, h2, _⟩ := transfer_complete 10 2 (by decide) (by decide)
    (fun _ => [.request none (.ok (206, [])), .read 6 none none])
  have hcs : cs = [newChunk 0 4, newChunk 5 9] := by
    have hd : splitChunk true 10 2 = some [newChunk 0 4, newChunk 5 9] := by decide
    rw [hd] at h1
    exact (Option.some.inj h1).symm
  subst hcs
  exact h2 0 (newChunk 0 4) .finished rfl (by decide) (by decide) (by decide)

end Fetcher

namespace Fetcher

/-! ## Worker: attempts, failures and the retry counter -/


theorem onError_countInv (r : Bool) (w : Worker) (e : Err)
    (hlen : w.requests.length = w.failures.length + 1)
    (hnc : ∀ e ∈ w.failures, e.isCanceled = false) : countInv r (onError r w e) := by
  unfold onError
  split_ifs with hc
  · refine ⟨fun h => absurd rfl h, ?_⟩
    simp only [countInv, List.length_append, List.length_singleton]
    exact ⟨hlen, e, List.mem_append_right _ (List.mem_singleton.2 rfl), hc⟩
  · have hnc' : ∀ x ∈ w.failures ++ [e], x.isCanceled = false := by
      intro x hx
      simp only [List.mem_append, List.mem_singleton] at hx
      rcases hx with hx | rfl
      · exact hnc x hx
      · simpa using hc
    unfold loopHead
    split_ifs with h1 h2
    · refine ⟨fun _ => hnc', ?_⟩
      simp only [countInv, List.length_append, List.length_singleton]
      exact ⟨hlen, h1.1, h1.2, trivial⟩
    · refine ⟨fun _ => hnc', ?_⟩
      simp [countInv, hlen]
    · exact absurd rfl h2



/-- The ways one turn of the read loop can end. -/
theorem stepRead_shape (r : Bool) (w : Worker) (n : Nat) (re : Option ReadErr)
    (we : Option Err) :
    ∃ w', sameControl w w' ∧
      (stepRead r w n re we = { w' with pc := .exited .panicked } ∨
        (∃ e, stepRead r w n re we = onError r w' e) ∨
        stepRead r w n re we = onSuccess .finished w' ∨
        stepRead r w n re we = onSuccess .eof w' ∨
        stepRead r w n re we = w') := by
  have tail : ∀ w' : Worker, sameControl w w' →
      ∃ w'', sameControl w w'' ∧
        (readTail r w' re = { w'' with pc := .exited .panicked } ∨
          (∃ e, readTail r w' re = onError r w'' e) ∨
          readTail r w' re = onSuccess .finished w'' ∨
          readTail r w' re = onSuccess .eof w'' ∨
          readTail r w' re = w'') := by
    intro w' hs
    refine ⟨w', hs, ?_⟩
    unfold readTail
    split
    · exact Or.inr (Or.inr (Or.inr (Or.inr rfl)))
    · exact Or.inr (Or.inr (Or.inr (Or.inl rfl)))
    · exact Or.inr (Or.inl ⟨_, rfl⟩)
  by_cases hn : 0 < n
  · simp only [stepRead, if_pos hn]
    generalize (r && decide (w.c.remain < (n : Int))) = fin
    generalize (if fin = true then w.c.remain else (n : Int)) = m
    by_cases hneg : m < 0
    · rw [if_pos hneg]
      exact ⟨w, ⟨rfl, rfl, rfl, rfl, rfl, rfl⟩, Or.inl rfl⟩
    · rw [if_neg hneg]
      cases we with
      | some e =>
        exact ⟨{ w with writes := w.writes ++ [(w.c.Begin + w.c.Downloaded, m, false)] },
          ⟨rfl, rfl, rfl, rfl, rfl, rfl⟩, Or.inr (Or.inl ⟨e, rfl⟩)⟩
      | none =>
        simp only
        split_ifs
        · exact ⟨{ w with c := { w.c with Downloaded := w.c.Downloaded + m },
                          writes := w.writes ++ [(w.c.Begin + w.c.Downloaded, m, true)] },
            ⟨rfl, rfl, rfl, rfl, rfl, rfl⟩, Or.inr (Or.inr (Or.inl rfl))⟩
        · exact tail { w with c := { w.c with Downloaded := w.c.Downloaded + m },
                              writes := w.writes ++ [(w.c.Begin + w.c.Downloaded, m, true)] }
            ⟨rfl, rfl, rfl, rfl, rfl, rfl⟩
  · simp only [stepRead, if_neg hn]
    exact tail w ⟨rfl, rfl, rfl, rfl, rfl, rfl⟩

theorem stepScan_countInv (r : Bool) (w : Worker) (o : List Bool) (hpc : w.pc = .scan)
    (h : countInv r w) : countInv r (stepScan w o) := by
  obtain ⟨hnc, h⟩ := h
  simp only [hpc] at h
  have hnc' := hnc (by rw [hpc]; simp)
  simp only [stepScan]
  split_ifs
  · exact ⟨fun _ => hnc', by simp only [countInv]; exact ⟨h.1, h.2.2⟩⟩
  · exact ⟨fun _ => hnc', by simp only [countInv]; exact h.1⟩
  · exact ⟨fun _ => hnc', by simp only [countInv]; exact h.1⟩

theorem stepRequest_countInv (r : Bool) (w : Worker) (b : Option Err)
    (resp : Except Err (Int × List Char)) (hpc : w.pc = .request) (h : countInv r w) :
    countInv r (stepRequest r w b resp) := by
  obtain ⟨hnc, h⟩ := h
  simp only [hpc] at h
  have hnc' := hnc (by rw [hpc]; simp)
  cases b with
  | some e => exact ⟨fun _ => hnc', by simp only [stepRequest, countInv]; exact h⟩
  | none =>
    cases resp with
    | error e =>
      simp only [stepRequest]
      exact onError_countInv r _ e (by simp [h]) hnc'
    | ok p =>
      obtain ⟨code, status⟩ := p
      simp only [stepRequest]
      by_cases hcode : code ≠ 200 ∧ code ≠ 206
      · rw [if_pos hcode]
        exact onError_countInv r _ _ (by simp [h]) hnc'
      · rw [if_neg hcode]
        exact ⟨fun _ => hnc', by simp [countInv, h]⟩

theorem stepRead_countInv (r : Bool) (w : Worker) (n : Nat) (re : Option ReadErr)
    (we : Option Err) (hpc : w.pc = .streaming) (h : countInv r w) :
    countInv r (stepRead r w n re we) := by
  obtain ⟨hnc, h⟩ := h
  simp only [hpc] at h
  have hnc' := hnc (by rw [hpc]; simp)
  obtain ⟨w', ⟨_, _, _, hpc', hreq, hfail⟩, hshape⟩ := stepRead_shape r w n re we
  rcases hshape with hs | ⟨e, hs⟩ | hs | hs | hs <;> rw [hs]
  · refine ⟨fun _ => by simpa [hfail] using hnc', ?_⟩
    simp only [countInv, hreq, hfail]; exact h
  · exact onError_countInv r w' e (by rw [hreq, hfail]; exact h) (by rw [hfail]; exact hnc')
  · refine ⟨fun _ => by simpa [onSuccess, hfail] using hnc', ?_⟩
    simp only [onSuccess, countInv, hreq, hfail]; exact ⟨h, trivial⟩
  · refine ⟨fun _ => by simpa [onSuccess, hfail] using hnc', ?_⟩
    simp only [onSuccess, countInv, hreq, hfail]; exact ⟨h, trivial⟩
  · refine ⟨fun _ => by simpa [hfail] using hnc', ?_⟩
    simp only [countInv, hpc', hpc, hreq, hfail]; exact h

theorem step_countInv (r : Bool) (w : Worker) (ev : Ev) (h : countInv r w) :
    countInv r (step r w ev) := by
  unfold step
  split
  · rename_i hpc; exact stepScan_countInv r w _ hpc h
  · rename_i hpc; exact stepRequest_countInv r w _ _ hpc h
  · rename_i hpc; exact stepRead_countInv r w _ _ _ hpc h
  · exact h

theorem enter_countInv (r : Bool) (c : chunk) : countInv r (enter r c) := by
  unfold enter loopHead
  split_ifs with h1 h2
  · exact ⟨fun _ e he => (by cases he), by simp only [countInv]; exact ⟨rfl, h1.1, h1.2, trivial⟩⟩
  · exact absurd h2 id
  · exact ⟨fun _ e he => (by cases he), by simp [countInv]⟩

theorem fetchChunk_countInv (r : Bool) (c : chunk) (evs : List Ev) :
    countInv r (fetchChunk r c evs) :=
  run_induct r (countInv r) (fun w ev h => step_countInv r w ev h) _ evs (enter_countInv r c)


/-- A property kept by every step on an input of the list holds after the run. -/
theorem run_induct_mem (r : Bool) (P : Worker → Prop) (evs : List Ev)
    (hstep : ∀ w ev, ev ∈ evs → P w → P (step r w ev)) (w : Worker) (h : P w) :
    P (run r w evs) := by
  induction evs generalizing w with
  | nil => exact h
  | cons ev evs ih =>
    exact ih (fun w' ev' hm hp => hstep w' ev' (List.mem_cons_of_mem _ hm) hp)
      (step r w ev) (hstep w ev (List.mem_cons_self _ _) h)


theorem onError_stuckInv (r : Bool) (w : Worker) (e : Err) (h3 : w.c.retryTimes ≤ 3)
    (hlen : w.requests.length = w.c.retryTimes + 1) : stuckInv (onError r w e) := by
  unfold onError
  split_ifs with hc
  · exact ⟨h3, by simp only [stuckInv]; exact hlen⟩
  · unfold loopHead
    split_ifs with h1 h2
    · exact ⟨h3, by simp only [stuckInv]; exact le_of_eq hlen⟩
    · exact ⟨h3, by simp only [stuckInv]; exact hlen⟩
    · exact absurd rfl h2

theorem stepScan_stuckInv (w : Worker) (o : List Bool) (hpc : w.pc = .scan)
    (hf : w.c.failed = true) (ho : o.all id = true) (h : stuckInv w) :
    stuckInv (stepScan w o) := by
  obtain ⟨h3, h⟩ := h
  simp only [hpc] at h
  have hall : (w.c.failed :: o).all id = true := by
    simp only [List.all_cons, id, hf, Bool.true_and]; exact ho
  simp only [stepScan, hall, if_true]
  split_ifs with hge
  · exact ⟨h3, by simp only [stuckInv]; omega⟩
  · exact ⟨by simp only; omega, by simp only [stuckInv]; exact h⟩

theorem stepRequest_stuckInv (r : Bool) (w : Worker) (b : Option Err)
    (resp : Except Err (Int × List Char)) (hpc : w.pc = .request) (h : stuckInv w) :
    stuckInv (stepRequest r w b resp) := by
  obtain ⟨h3, h⟩ := h
  simp only [hpc] at h
  cases b with
  | some e => exact ⟨h3, by simp only [stepRequest, stuckInv]; exact h⟩
  | none =>
    have hr : (if r = true then w.c else { w.c with Downloaded := 0 }).retryTimes
        = w.c.retryTimes := by split_ifs <;> rfl
    cases resp with
    | error e =>
      simp only [stepRequest]
      exact onError_stuckInv r _ e (by rw [hr]; exact h3) (by simp [h, hr])
    | ok p =>
      obtain ⟨code, status⟩ := p
      simp only [stepRequest]
      by_cases hcode : code ≠ 200 ∧ code ≠ 206
      · rw [if_pos hcode]
        exact onError_stuckInv r _ _ (by rw [hr]; exact h3) (by simp [h, hr])
      · rw [if_neg hcode]
        exact ⟨by simp only [hr]; exact h3, by simp [stuckInv, h, hr]⟩

theorem stepRead_stuckInv (r : Bool) (w : Worker) (n : Nat) (re : Option ReadErr)
    (we : Option Err) (hpc : w.pc = .streaming) (h : stuckInv w) :
    stuckInv (stepRead r w n re we) := by
  obtain ⟨h3, h⟩ := h
  simp only [hpc] at h
  obtain ⟨w', ⟨hrt, _, _, hpc', hreq, _⟩, hshape⟩ := stepRead_shape r w n re we
  rcases hshape with hs | ⟨e, hs⟩ | hs | hs | hs <;> rw [hs]
  · exact ⟨by simp only [hrt]; exact h3, by simp only [stuckInv, hreq, hrt]; exact h⟩
  · exact onError_stuckInv r w' e (by rw [hrt]; exact h3) (by rw [hreq, hrt]; exact h)
  · exact ⟨by simp only [onSuccess, hrt]; exact h3,
      by simp only [onSuccess, stuckInv, hreq, hrt]; exact h⟩
  · exact ⟨by simp only [onSuccess, hrt]; exact h3,
      by simp only [onSuccess, stuckInv, hreq, hrt]; exact h⟩
  · exact ⟨by rw [hrt]; exact h3, by simp only [stuckInv, hpc', hpc, hreq, hrt]; exact h⟩

theorem step_stuckInv (r : Bool) (w : Worker) (ev : Ev)
    (hev : ∀ o, ev = .scan o → o.all id = true) (h : countInv r w ∧ stuckInv w) :
    countInv r (step r w ev) ∧ stuckInv (step r w ev) := by
  refine ⟨step_countInv r w ev h.1, ?_⟩
  unfold step
  split
  · rename_i o hpc
    have hc := h.1.2
    simp only [hpc] at hc
    exact stepScan_stuckInv w o hpc hc.2.1 (hev o rfl) h.2
  · rename_i hpc; exact stepRequest_stuckInv r w _ _ hpc h.2
  · rename_i hpc; exact stepRead_stuckInv r w _ _ _ hpc h.2
  · exact h.2

theorem enter_stuckInv (r : Bool) (c : chunk) : stuckInv (enter r c) := by
  unfold enter loopHead
  split_ifs with h1 h2
  · exact ⟨by simp, by simp [stuckInv]⟩
  · exact absurd h2 id
  · exact ⟨by simp, by simp [stuckInv]⟩

theorem fetchChunk_stuckInv (r : Bool) (c : chunk) (evs : List Ev)
    (hscan : ∀ o, Ev.scan o ∈ evs → o.all id = true) :
    countInv r (fetchChunk r c evs) ∧ stuckInv (fetchChunk r c evs) :=
  run_induct_mem r (fun w => countInv r w ∧ stuckInv w) evs
    (fun w ev hm h => step_stuckInv r w ev (fun o ho => hscan o (ho ▸ hm)) h) _
    ⟨enter_countInv r c, enter_stuckInv r c⟩

theorem stuckInv_le (w : Worker) (h : stuckInv w) : w.requests.length ≤ 4 := by
  obtain ⟨h3, h⟩ := h
  split at h <;> omega

end Fetcher

namespace Fetcher

/-! ## Worker: a transfer where every request fails -/





theorem run_exited (r : Bool) (w : Worker) (x : Exit) (evs : List Ev)
    (h : w.pc = .exited x) : run r w evs = w := by
  induction evs with
  | nil => rfl
  | cons ev evs ih =>
    have : step r w ev = w := by
      unfold step; rw [h]
    unfold run at ih ⊢
    rw [List.foldl_cons, this]; exact ih

theorem loopHead_failed (r : Bool) (w : Worker) (hf : w.c.failed = true)
    (hrem : r = true → 0 < w.c.remain) : loopHead r w = { w with pc := .scan } := by
  unfold loopHead
  rw [if_neg (by rintro ⟨h1, h2⟩; have := hrem h1; omega), if_pos hf]

theorem request_fails (r : Bool) (k : Nat) (w : Worker)
    (resp : Except Err (Int × List Char)) (hw : retrying r k w) (hf : failsAtRequest resp) :
    (step r w (.request none resp)).pc = .scan ∧
      (step r w (.request none resp)).c.failed = true ∧
      (step r w (.request none resp)).c.retryTimes = k ∧
      (step r w (.request none resp)).err = some (requestError resp) ∧
      (r = true → 0 < (step r w (.request none resp)).c.remain) := by
  obtain ⟨hpc, hk, hrem⟩ := hw
  have hstep : step r w (.request none resp) = stepRequest r w none resp := by
    unfold step; rw [hpc]
  have hrem' : r = true →
      0 < ({ (if r = true then w.c else { w.c with Downloaded := 0 }) with failed := true } :
        chunk).remain := by
    intro hr
    have := hrem hr
    rw [if_pos hr]; exact this
  have key : ∀ (e : Err) (w1 : Worker), e.isCanceled = false →
      w1.c = (if r = true then w.c else { w.c with Downloaded := 0 }) →
      (onError r w1 e).pc = .scan ∧ (onError r w1 e).c.failed = true ∧
        (onError r w1 e).c.retryTimes = k ∧ (onError r w1 e).err = some e ∧
        (r = true → 0 < (onError r w1 e).c.remain) := by
    intro e w1 he hc
    unfold onError
    rw [if_neg (by rw [he]; simp)]
    rw [loopHead_failed r _ rfl (by intro hr; simp only [hc]; exact hrem' hr)]
    refine ⟨rfl, rfl, ?_, rfl, ?_⟩
    · simp only [hc]; split_ifs <;> exact hk
    · intro hr; simp only [hc]; exact hrem' hr
  rw [hstep]
  cases resp with
  | error e =>
    simp only [stepRequest]
    exact key e _ hf rfl
  | ok p =>
    obtain ⟨code, status⟩ := p
    simp only [stepRequest]
    have hf' : code ≠ 200 ∧ code ≠ 206 := hf
    rw [if_pos hf']
    exact key _ _ rfl rfl

theorem round_retries (r : Bool) (k : Nat) (w : Worker)
    (a : Except Err (Int × List Char) × List Bool) (hw : retrying r k w)
    (hf : failsAtRequest a.1) (ho : a.2.all id = true) (hk : k < 3) :
    retrying r (k + 1) (run r w [.request none a.1, .scan a.2]) := by
  obtain ⟨h1, h2, h3, _, h5⟩ := request_fails r k w a.1 hw hf
  have hrun : run r w [.request none a.1, .scan a.2]
      = stepScan (step r w (.request none a.1)) a.2 := by
    simp only [run, List.foldl_cons, List.foldl_nil]
    generalize step r w (.request none a.1) = w1 at h1 ⊢
    unfold step; rw [h1]
  rw [hrun]
  have hall : ((step r w (.request none a.1)).c.failed :: a.2).all id = true := by
    simp only [List.all_cons, id, h2, Bool.true_and]; exact ho
  simp only [stepScan, hall, if_true]
  rw [if_neg (by omega)]
  exact ⟨rfl, by simp only [h3], h5⟩

theorem round_exhausts (r : Bool) (w : Worker)
    (a : Except Err (Int × List Char) × List Bool) (hw : retrying r 3 w)
    (hf : failsAtRequest a.1) (ho : a.2.all id = true) :
    (run r w [.request none a.1, .scan a.2]).pc = .exited .exhausted ∧
      (run r w [.request none a.1, .scan a.2]).err = some (requestError a.1) := by
  obtain ⟨h1, h2, h3, h4, _⟩ := request_fails r 3 w a.1 hw hf
  have hrun : run r w [.request none a.1, .scan a.2]
      = stepScan (step r w (.request none a.1)) a.2 := by
    simp only [run, List.foldl_cons, List.foldl_nil]
    generalize step r w (.request none a.1) = w1 at h1 ⊢
    unfold step; rw [h1]
  rw [hrun]
  have hall : ((step r w (.request none a.1)).c.failed :: a.2).all id = true := by
    simp only [List.all_cons, id, h2, Bool.true_and]; exact ho
  simp only [stepScan, hall, if_true]
  rw [if_pos (by omega)]
  exact ⟨rfl, h4⟩

theorem enter_retrying (r : Bool) (c : chunk) (hrem : r = true → 0 < c.remain) :
    retrying r 0 (enter r c) := by
  unfold enter loopHead
  rw [if_neg (by rintro ⟨h1, h2⟩; have := hrem h1; unfold chunk.remain at *; simp only at h2; omega)]
  rw [if_neg (by simp)]
  exact ⟨rfl, rfl, hrem⟩

/-- Four attempts that end at the request, each followed by a scan that sees
every chunk failed, exhaust the worker, which returns the error of the fourth. -/
theorem stuck_exhausts (r : Bool) (c : chunk)
    (a1 a2 a3 a4 : Except Err (Int × List Char) × List Bool) (rest : List Ev)
    (hrem : r = true → 0 < c.remain)
    (h1 : failsAtRequest a1.1 ∧ a1.2.all id = true)
    (h2 : failsAtRequest a2.1 ∧ a2.2.all id = true)
    (h3 : failsAtRequest a3.1 ∧ a3.2.all id = true)
    (h4 : failsAtRequest a4.1 ∧ a4.2.all id = true) :
    (fetchChunk r c (stuckScript [a1, a2, a3, a4] ++ rest)).pc = .exited .exhausted ∧
      (fetchChunk r c (stuckScript [a1, a2, a3, a4] ++ rest)).err
        = some (requestError a4.1) := by
  have e0 := enter_retrying r c hrem
  have e1 := round_retries r 0 _ a1 e0 h1.1 h1.2 (by omega)
  have e2 := round_retries r 1 _ a2 e1 h2.1 h2.2 (by omega)
  have e3 := round_retries r 2 _ a3 e2 h3.1 h3.2 (by omega)
  have e4 := round_exhausts r _ a4 e3 h4.1 h4.2
  have hsplit : fetchChunk r c (stuckScript [a1, a2, a3, a4] ++ rest)
      = run r (run r (run r (run r (run r (enter r c) [.request none a1.1, .scan a1.2])
          [.request none a2.1, .scan a2.2]) [.request none a3.1, .scan a3.2])
          [.request none a4.1, .scan a4.2]) rest := by
    simp only [fetchChunk, stuckScript, run, List.foldl_cons, List.foldl_nil, List.foldl_append,
      List.cons_append, List.nil_append]
  rw [hsplit, run_exited r _ _ rest e4.1]
  exact e4

end Fetcher

namespace Fetcher

theorem sum_map_le_mul {α : Type} (f : α → Nat) (b : Nat) (l : List α)
    (h : ∀ p ∈ l, f p ≤ b) : (l.map f).sum ≤ b * l.length := by
  induction l with
  | nil => simp
  | cons a l ih =>
    have h1 := h a (List.mem_cons_self _ _)
    have h2 := ih (fun p hp => h p (List.mem_cons_of_mem _ hp))
    simp only [List.map_cons, List.sum_cons, List.length_cons]
    rw [Nat.mul_succ]; omega

/-- C5, as stated, fails: with two chunks, every request answered 500 and
every scan seeing all chunks failed, each worker makes four requests before it
returns on exhaustion, eight in all, more than `3 * 2 + 1`. -/
theorem stuck_transfer_eight_attempts :
    splitChunk true 10 2 = some [newChunk 0 4, newChunk 5 9] ∧
      (fetchChunk true (newChunk 0 4)
        (stuckScript (List.replicate 4 (.ok (500, []), [true])))).pc = .exited .exhausted ∧
      (fetchChunk true (newChunk 5 9)
        (stuckScript (List.replicate 4 (.ok (500, []), [true])))).pc = .exited .exhausted ∧
      3 * 2 + 1 <
        (fetchChunk true (newChunk 0 4)
          (stuckScript (List.replicate 4 (.ok (500, []), [true])))).requests.length +
        (fetchChunk true (newChunk 5 9)
          (stuckScript (List.replicate 4 (.ok (500, []), [true])))).requests.length := by
  decide

/-- C5, amended. In a transfer where every scan of the flags sees all chunks
failed, the workers make at most `4 * N` requests in all, `N` being the number
of chunks; a worker that returned on exhaustion has made exactly four
requests, all failed, and returns the error of the last one, which is not a
cancellation; and a worker on an incomplete chunk whose four attempts end at
the request does return on exhaustion, with the error of the fourth. -/
theorem stuck_transfer_attempts (r : Bool) (ws : List (chunk × List Ev))
    (hscan : ∀ p ∈ ws, ∀ o, Ev.scan o ∈ p.2 → o.all id = true) :
    (ws.map fun p => (fetchChunk r p.1 p.2).requests.length).sum ≤ 4 * ws.length ∧
      (∀ p ∈ ws, (fetchChunk r p.1 p.2).pc = .exited .exhausted →
        (fetchChunk r p.1 p.2).requests.length = 4 ∧
          (fetchChunk r p.1 p.2).failures.length = 4 ∧
          ∃ e, (fetchChunk r p.1 p.2).err = some e ∧
            (fetchChunk r p.1 p.2).failures.getLast? = some e ∧ e.isCanceled = false) ∧
      (∀ p ∈ ws, ∀ (a1 a2 a3 a4 : Except Err (Int × List Char) × List Bool) (rest : List Ev),
        p.2 = stuckScript [a1, a2, a3, a4] ++ rest →
        failsAtRequest a1.1 → failsAtRequest a2.1 → failsAtRequest a3.1 →
        failsAtRequest a4.1 → (r = true → 0 < p.1.remain) →
        (fetchChunk r p.1 p.2).pc = .exited .exhausted ∧
          (fetchChunk r p.1 p.2).err = some (requestError a4.1)) := by
  refine ⟨?_, ?_, ?_⟩
  · apply sum_map_le_mul
    intro p hp
    exact stuckInv_le _ (fetchChunk_stuckInv r p.1 p.2 (hscan p hp)).2
  · intro p hp hpc
    obtain ⟨⟨hnc, hc⟩, ⟨_, hs⟩⟩ := fetchChunk_stuckInv r p.1 p.2 (hscan p hp)
    simp only [hpc] at hc hs
    have hnc' := hnc (by rw [hpc]; simp)
    obtain ⟨hlen, herr, hne⟩ := hc
    refine ⟨hs, by omega, ?_⟩
    cases hl : (fetchChunk r p.1 p.2).failures.getLast? with
    | none =>
      rw [List.getLast?_eq_none_iff] at hl
      exact absurd hl hne
    | some e =>
      exact ⟨e, by rw [herr, hl], rfl, hnc' e (List.mem_of_getLast?_eq_some hl)⟩
  · intro p hp a1 a2 a3 a4 rest hscript f1 f2 f3 f4 hrem
    have ho : ∀ o, Ev.scan o ∈ stuckScript [a1, a2, a3, a4] → o.all id = true := by
      intro o hm
      exact hscan p hp o (by rw [hscript]; exact List.mem_append_left _ hm)
    have o1 := ho a1.2 (by simp [stuckScript])
    have o2 := ho a2.2 (by simp [stuckScript])
    have o3 := ho a3.2 (by simp [stuckScript])
    have o4 := ho a4.2 (by simp [stuckScript])
    rw [hscript]
    exact stuck_exhausts r p.1 a1 a2 a3 a4 rest hrem ⟨f1, o1⟩ ⟨f2, o2⟩ ⟨f3, o3⟩ ⟨f4, o4⟩

/-- Witness of the amended C5: the two chunks of a resource of size 10, every
request answered 500. -/
theorem stuck_transfer_attempts_witness :
    ([(newChunk 0 4, stuckScript (List.replicate 4 (.ok (500, []), [true]))),
      (newChunk 5 9, stuckScript (List.replicate 4 (.ok (500, []), [true])))].map
        fun p => (fetchChunk true p.1 p.2).requests.length).sum ≤ 4 * 2 :=
  (stuck_transfer_attempts true
    [(newChunk 0 4, stuckScript (List.replicate 4 (.ok (500, []), [true]))),
      (newChunk 5 9, stuckScript (List.replicate 4 (.ok (500, []), [true])))]
    (by
      intro p hp o ho
      simp only [List.mem_cons, List.mem_singleton, List.not_mem_nil, or_false] at hp
      rcases hp with rfl | rfl <;>
        · simp [stuckScript, List.replicate] at ho
          subst ho; rfl)).1

end Fetcher

namespace Fetcher

/-! ## Worker: the retry counter when some chunk has not failed -/

theorem loopHead_not_exhausted (r : Bool) (w : Worker) :
    (loopHead r w).pc ≠ .exited .exhausted := by
  unfold loopHead
  split_ifs <;> simp

theorem onError_not_exhausted (r : Bool) (w : Worker) (e : Err) :
    (onError r w e).pc ≠ .exited .exhausted := by
  unfold onError
  split_ifs
  · simp
  · exact loopHead_not_exhausted r _

theorem stepRequest_retry (r : Bool) (w : Worker) (b : Option Err)
    (resp : Except Err (Int × List Char)) :
    (stepRequest r w b resp).c.retryTimes = w.c.retryTimes ∧
      (stepRequest r w b resp).pc ≠ .exited .exhausted := by
  have hr : (if r = true then w.c else { w.c with Downloaded := 0 }).retryTimes
      = w.c.retryTimes := by split_ifs <;> rfl
  cases b with
  | some e => exact ⟨rfl, by simp [stepRequest]⟩
  | none =>
    cases resp with
    | error e =>
      simp only [stepRequest]
      exact ⟨by rw [(onError_bounds r _ e).2.2.2]; exact hr, onError_not_exhausted r _ e⟩
    | ok p =>
      obtain ⟨code, status⟩ := p
      simp only [stepRequest]
      by_cases hcode : code ≠ 200 ∧ code ≠ 206
      · rw [if_pos hcode]
        exact ⟨by rw [(onError_bounds r _ _).2.2.2]; exact hr, onError_not_exhausted r _ _⟩
      · rw [if_neg hcode]
        exact ⟨hr, by simp⟩

theorem stepRead_retry (r : Bool) (w : Worker) (n : Nat) (re : Option ReadErr)
    (we : Option Err) (hpc : w.pc = .streaming) :
    (stepRead r w n re we).c.retryTimes = w.c.retryTimes ∧
      (stepRead r w n re we).pc ≠ .exited .exhausted := by
  obtain ⟨w', ⟨hrt, _, _, hpc', _, _⟩, hshape⟩ := stepRead_shape r w n re we
  rcases hshape with hs | ⟨e, hs⟩ | hs | hs | hs <;> rw [hs]
  · exact ⟨hrt, by simp⟩
  · exact ⟨by rw [(onError_bounds r w' e).2.2.2]; exact hrt, onError_not_exhausted r w' e⟩
  · exact ⟨hrt, by simp [onSuccess]⟩
  · exact ⟨hrt, by simp [onSuccess]⟩
  · exact ⟨hrt, by rw [hpc', hpc]; simp⟩

/-- A step changes `retryTimes` only if it is a scan, by a worker whose
`failed` flag is set, that sees the flag of every other chunk set. -/
theorem step_retry_changes (r : Bool) (w : Worker) (ev : Ev)
    (h : (step r w ev).c.retryTimes ≠ w.c.retryTimes) :
    ∃ o, ev = .scan o ∧ w.pc = .scan ∧ w.c.failed = true ∧ o.all id = true := by
  unfold step at h
  split at h
  · rename_i o hpc
    refine ⟨o, rfl, hpc, ?_⟩
    simp only [stepScan] at h
    split_ifs at h with hall
    · exact absurd rfl h
    · simp only [List.all_cons, id, Bool.and_eq_true] at hall
      exact hall
    · exact absurd rfl h
  · exact absurd (stepRequest_retry r w _ _).1 h
  · rename_i hpc
    exact absurd (stepRead_retry r w _ _ _ hpc).1 h
  · exact absurd rfl h


theorem step_freshRetry (r : Bool) (w : Worker) (ev : Ev)
    (hev : ∀ o, ev = .scan o → o.all id = false) (h : freshRetry w) :
    freshRetry (step r w ev) := by
  obtain ⟨h0, hx⟩ := h
  unfold step
  split
  · rename_i o hpc
    have hall : ((w.c.failed :: o).all id = true) = False := by
      simp only [List.all_cons, id, hev o rfl, Bool.and_false, Bool.false_eq_true]
    simp only [stepScan, hall, if_false]
    exact ⟨h0, by simp⟩
  · exact ⟨by rw [(stepRequest_retry r w _ _).1]; exact h0, (stepRequest_retry r w _ _).2⟩
  · rename_i hpc
    exact ⟨by rw [(stepRead_retry r w _ _ _ hpc).1]; exact h0, (stepRead_retry r w _ _ _ hpc).2⟩
  · exact ⟨h0, hx⟩

theorem enter_freshRetry (r : Bool) (c : chunk) : freshRetry (enter r c) := by
  unfold enter
  exact ⟨by rw [loopHead_c], loopHead_not_exhausted r _⟩

end Fetcher

namespace Fetcher

/-- C10, as stated, fails: with a sibling whose `failed` flag is not set, the
worker of chunk `[0, 9]` is served its 10 bytes and then a read error; the
attempt has failed, and after this one failed attempt the worker is not
retrying: the completion check at the loop head has returned `nil`. -/
theorem failed_attempt_can_complete :
    (fetchChunk true (newChunk 0 9)
        [.request none (.ok (206, [])), .read 10 none none,
          .read 0 (some (.fail (.other 1))) none, .scan [false]]).failures = [.other 1] ∧
      (fetchChunk true (newChunk 0 9)
        [.request none (.ok (206, [])), .read 10 none none,
          .read 0 (some (.fail (.other 1))) none, .scan [false]]).requests.length = 1 ∧
      (fetchChunk true (newChunk 0 9)
        [.request none (.ok (206, [])), .read 10 none none,
          .read 0 (some (.fail (.other 1))) none, .scan [false]]).pc = .exited .completed ∧
      (fetchChunk true (newChunk 0 9)
        [.request none (.ok (206, [])), .read 10 none none,
          .read 0 (some (.fail (.other 1))) none, .scan [false]]).err = none := by
  decide

/-- C10, amended. `retryTimes` changes only on a scan that sees every chunk
failed. So for a worker whose scans each see some other chunk not failed:
`retryTimes` is 0 and it has not returned on exhaustion, after any inputs; and
once all the requests it made have failed with errors that are not
cancellations, it is still retrying, unless it has returned on the completion
check (range-supported, nothing left to download) or on an error of
`buildRequest`. -/
theorem retry_counter_needs_all_failed (r : Bool) (c : chunk) (evs : List Ev)
    (hscan : ∀ o, Ev.scan o ∈ evs → o.all id = false) :
    (∀ (w : Worker) (ev : Ev), (step r w ev).c.retryTimes ≠ w.c.retryTimes →
        ∃ o, ev = .scan o ∧ w.pc = .scan ∧ w.c.failed = true ∧ o.all id = true) ∧
      (fetchChunk r c evs).c.retryTimes = 0 ∧
      (fetchChunk r c evs).pc ≠ .exited .exhausted ∧
      ((fetchChunk r c evs).failures.length = (fetchChunk r c evs).requests.length →
        (∀ e ∈ (fetchChunk r c evs).failures, e.isCanceled = false) →
        (fetchChunk r c evs).pc = .scan ∨ (fetchChunk r c evs).pc = .request ∨
          ((fetchChunk r c evs).pc = .exited .completed ∧ r = true ∧
            (fetchChunk r c evs).c.remain ≤ 0) ∨
          (fetchChunk r c evs).pc = .exited .buildError) := by
  have hfresh : freshRetry (fetchChunk r c evs) :=
    run_induct_mem r freshRetry evs
      (fun w ev hm h => step_freshRetry r w ev (fun o ho => hscan o (ho ▸ hm)) h) _
      (enter_freshRetry r c)
  refine ⟨step_retry_changes r, hfresh.1, hfresh.2, ?_⟩
  intro hlen hnc
  obtain ⟨_, hc⟩ := fetchChunk_countInv r c evs
  generalize fetchChunk r c evs = w at hfresh hlen hnc hc ⊢
  obtain ⟨c', err, pc, reqs, fails, wr⟩ := w
  simp only at hfresh hlen hnc hc ⊢
  cases pc with
  | scan => exact Or.inl rfl
  | request => exact Or.inr (Or.inl rfl)
  | streaming => simp only at hc; omega
  | exited x =>
    cases x with
    | completed => simp only at hc; exact Or.inr (Or.inr (Or.inl ⟨rfl, hc.2.1, hc.2.2.1⟩))
    | exhausted => exact absurd rfl hfresh.2
    | buildError => exact Or.inr (Or.inr (Or.inr rfl))
    | canceled =>
      simp only at hc
      obtain ⟨_, e, he, hcan⟩ := hc
      rw [hnc e he] at hcan; cases hcan
    | finished => simp only at hc; omega
    | eof => simp only at hc; omega
    | panicked => simp only at hc; omega

/-- Witness of the amended C10: five requests answered 500 while the scans see
a sibling that has not failed; the worker is still retrying. -/
theorem retry_counter_needs_all_failed_witness :
    (fetchChunk true (newChunk 0 9)
        (stuckScript (List.replicate 5 (.ok (500, []), [false])))).pc = .request ∧
      (fetchChunk true (newChunk 0 9)
        (stuckScript (List.replicate 5 (.ok (500, []), [false])))).requests.length = 5 ∧
      (fetchChunk true (newChunk 0 9)
        (stuckScript (List.replicate 5 (.ok (500, []), [false])))).c.retryTimes = 0 :=
  ⟨by decide, by decide,
    (retry_counter_needs_all_failed true (newChunk 0 9)
      (stuckScript (List.replicate 5 (.ok (500, []), [false])))
      (by
        intro o ho
        simp [stuckScript, List.replicate] at ho
        subst ho; rfl)).2.1⟩

end Fetcher

namespace Fetcher

/-! ## `Store`, `Restore`, `Start` -/

theorem enter_request_header (c : chunk) (resp : Except Err (Int × List Char))
    (hrem : 0 < c.remain) :
    (step true (enter true c) (.request none resp)).requests
      = [some (c.Begin + c.Downloaded, c.End)] := by
  obtain ⟨hpc, _, _⟩ := enter_retrying true c (fun _ => hrem)
  have hstep : step true (enter true c) (.request none resp)
      = stepRequest true (enter true c) none resp := by
    unfold step; rw [hpc]
  have hreq : (enter true c).requests = [] := by unfold enter; rw [loopHead_requests]
  have hc : (enter true c).c = { c with failed := false, retryTimes := 0 } := by
    unfold enter; rw [loopHead_c]
  rw [hstep]
  cases resp with
  | error e =>
    simp only [stepRequest, ↓reduceIte]
    rw [onError_requests, hreq, hc]; rfl
  | ok p =>
    obtain ⟨code, status⟩ := p
    simp only [stepRequest, ↓reduceIte]
    by_cases hcode : code ≠ 200 ∧ code ≠ 206
    · rw [if_pos hcode, onError_requests, hreq, hc]; rfl
    · rw [if_neg hcode, hreq, hc]; rfl

/-- C9. A fetcher rebuilt by `Restore` from what `Store` returned for a
fetcher with a non-empty chunk slice has the same chunks, in the same order,
with the same `Begin`, `End` and `Downloaded`; `Start` then runs one worker per
such chunk, and on a range-supported resource the first request of a chunk with
`remain() > 0` carries the range from `Begin + Downloaded` to `End`, which is
`remain()` bytes long. When the stored slice is empty, the restored fetcher
has no chunks and `Start` partitions again with `splitChunk`. -/
theorem restore_store_resumes (f : FetcherState) (m : FetcherMeta) (res : Resource)
    (hm : m.Res = some res) :
    (∀ cs : List chunk, f.chunks = some cs → cs ≠ [] →
      (Restore m (Store f)).chunks = some cs ∧
        Start (Restore m (Store f)) none
          = .running { meta := m, chunks := some cs } (cs.map (enter res.Range)) ∧
        ∀ c ∈ cs, res.Range = true → 0 < c.remain →
          ∀ resp : Except Err (Int × List Char),
            (step res.Range (enter res.Range c) (.request none resp)).requests
                = [some (c.Begin + c.Downloaded, c.End)] ∧
              c.End - (c.Begin + c.Downloaded) + 1 = c.remain) ∧
      (sliceLen f.chunks = 0 →
        (Restore m (Store f)).chunks = none ∧
          Start (Restore m (Store f)) none
            = match splitChunk res.Range res.Size m.Connections with
              | none => .panicked
              | some cs =>
                .running { meta := m, chunks := some cs } (cs.map (enter res.Range))) := by
  constructor
  · intro cs hcs hne
    have hlen : sliceLen (some cs) > 0 := by
      cases cs with
      | nil => exact absurd rfl hne
      | cons a l => simp [sliceLen]
    have hchunks : (Restore m (Store f)).chunks = some cs := by
      simp only [Restore, Store, hcs, if_pos hlen]
    refine ⟨hchunks, ?_, ?_⟩
    · have hmeta : (Restore m (Store f)).meta = m := rfl
      simp only [Start, hmeta, hm, hchunks]
    · intro c _ hr hrem resp
      rw [hr]
      exact ⟨enter_request_header c resp hrem, by unfold chunk.remain; ring⟩
  · intro hlen
    have hchunks : (Restore m (Store f)).chunks = none := by
      simp only [Restore, Store, hlen, gt_iff_lt, lt_self_iff_false, if_false]
    refine ⟨hchunks, ?_⟩
    have hmeta : (Restore m (Store f)).meta = m := rfl
    simp only [Start, hmeta, hm, hchunks]

/-- Witness of C9: a fetcher paused with its two chunks partly downloaded. -/
theorem restore_store_resumes_witness :
    (Restore { Res := some { Range := true, Size := 10, Files := [] }, Connections := 2 }
        (Store { meta := { Res := none, Connections := 2 },
                 chunks := some [{ newChunk 0 4 with Downloaded := 3 },
                                 { newChunk 5 9 with Downloaded := 1 }] })).chunks
      = some [{ newChunk 0 4 with Downloaded := 3 }, { newChunk 5 9 with Downloaded := 1 }] ∧
    (step true (enter true { newChunk 0 4 with Downloaded := 3 })
        (.request none (.ok (206, [])))).requests = [some (3, 4)] :=
  ⟨((restore_store_resumes
      { meta := { Res := none, Connections := 2 },
        chunks := some [{ newChunk 0 4 with Downloaded := 3 },
                        { newChunk 5 9 with Downloaded := 1 }] }
      { Res := some { Range := true, Size := 10, Files := [] }, Connections := 2 }
      { Range := true, Size := 10, Files := [] } rfl).1 _ rfl (by simp)).1,
    by decide⟩

end Fetcher

namespace Fetcher

/-! ## `Resolve` -/

theorem Resolve_ok (d : Deps) (p h : List Char) (m : FetcherMeta) (resp : Response)
    (rg : Bool) (sz : Int) (hc : classify resp = .ok (rg, sz)) :
    Resolve d p h m (.ok resp) =
      (none, { m with Res := some (Resource.mk rg sz
        [FileInfo.mk
          (deriveName d.queryUnescape (dispositionName d resp.ContentDisposition) p h) sz
          (if resp.LastModified ≠ [] then some (d.parseTime resp.LastModified) else none)]) }) := by
  simp only [Resolve, hc]

theorem Resolve_error (d : Deps) (p h : List Char) (m : FetcherMeta) (resp : Response)
    (e : Err) (hc : classify resp = .error e) :
    Resolve d p h m (.ok resp) = (some e, m) := by
  simp only [Resolve, hc]


theorem classify_range (resp : Response) (h : rangeStatus resp) :
    classify resp =
      if pathBase resp.ContentRange ≠ [] ∧ pathBase resp.ContentRange ≠ ['*'] then
        match parseInt (pathBase resp.ContentRange) with
        | .error k => .error (.parse k (pathBase resp.ContentRange))
        | .ok v => .ok (true, v)
      else .ok (true, 0) := by
  have h' : HttpCodePartialContent = resp.StatusCode ∨
      (HttpCodeOK = resp.StatusCode ∧ resp.AcceptRanges = HttpHeaderBytes ∧
        HttpHeaderBytes.isPrefixOf resp.ContentRange = true) := by
    rcases h with h | ⟨h1, h2, h3⟩
    · exact Or.inl h.symm
    · exact Or.inr ⟨h1.symm, h2, h3⟩
  unfold classify
  rw [if_pos h']

theorem classify_plain (resp : Response) (h : ¬ rangeStatus resp)
    (h200 : resp.StatusCode = 200) :
    classify resp =
      if resp.ContentLength ≠ [] then
        match parseInt resp.ContentLength with
        | .error k => .error (.parse k resp.ContentLength)
        | .ok v => .ok (false, v)
      else .ok (false, 0) := by
  have h' : ¬ (HttpCodePartialContent = resp.StatusCode ∨
      (HttpCodeOK = resp.StatusCode ∧ resp.AcceptRanges = HttpHeaderBytes ∧
        HttpHeaderBytes.isPrefixOf resp.ContentRange = true)) := by
    intro hh
    apply h
    rcases hh with hh | ⟨h1, h2, h3⟩
    · exact Or.inl hh.symm
    · exact Or.inr ⟨h1.symm, h2, h3⟩
  unfold classify
  rw [if_neg h', if_pos (show HttpCodeOK = resp.StatusCode from h200.symm)]

theorem classify_other (resp : Response) (h200 : resp.StatusCode ≠ 200)
    (h206 : resp.StatusCode ≠ 206) :
    classify resp = .error (.request resp.StatusCode resp.Status) := by
  unfold classify
  rw [if_neg, if_neg]
  · exact fun hh => h200 hh.symm
  · rintro (hh | ⟨hh, _⟩)
    · exact h206 hh.symm
    · exact h200 hh.symm

theorem classify_flag (resp : Response) (rg : Bool) (sz : Int)
    (hc : classify resp = .ok (rg, sz)) : rg = true ↔ rangeStatus resp := by
  by_cases hr : rangeStatus resp
  · rw [classify_range resp hr] at hc
    split_ifs at hc
    · split at hc
      · cases hc
      · cases hc; exact ⟨fun _ => hr, fun _ => rfl⟩
    · cases hc; exact ⟨fun _ => hr, fun _ => rfl⟩
  · by_cases h200 : resp.StatusCode = 200
    · rw [classify_plain resp hr h200] at hc
      split_ifs at hc
      · split at hc
        · cases hc
        · cases hc; exact ⟨fun h => (by cases h), fun h => absurd h hr⟩
      · cases hc; exact ⟨fun h => (by cases h), fun h => absurd h hr⟩
    · have h206 : resp.StatusCode ≠ 206 := fun h => hr (Or.inl h)
      rw [classify_other resp h200 h206] at hc
      cases hc

theorem pathBase_ne_nil (s : List Char) : pathBase s ≠ [] := by
  unfold pathBase
  split_ifs with h1
  · simp
  · simp only
    split_ifs with h2
    · simp
    · exact h2

/-- C7, as stated, fails: a probe answered 206 is not always given
`range_supported = true`. With `Content-Range: bytes 0-0/abc` the total does
not parse and `Resolve` returns the parse error, the resource staying unset;
the same happens when the 206 response carries no `Content-Range` at all
(`path.Base` of the empty text is `.`). -/
theorem resolve_range_probe_can_fail :
    Resolve plainDeps [] [] { Res := none, Connections := 1 }
        (.ok (partialContent "bytes 0-0/abc".toList))
      = (some (.parse false "abc".toList), { Res := none, Connections := 1 }) ∧
    Resolve plainDeps [] [] { Res := none, Connections := 1 }
        (.ok (partialContent []))
      = (some (.parse false ".".toList), { Res := none, Connections := 1 }) := by
  constructor <;> rfl

/-- C7, amended. `Resolve` classifies the probe response by status and
headers. A status other than 200 and 206 makes it fail with the `RequestError`
of that status code and status text. When the status is 206, or is 200 with
`Accept-Ranges` equal to `bytes` and `Content-Range` beginning with `bytes`,
`Resolve` takes the total `path.Base(Content-Range)`: if it is `*` it succeeds
with a range-supported resource of size 0, if it parses it succeeds with a
range-supported resource of that size, and otherwise it fails with the parse
error. Every other status-200 response gives a resource that is not
range-supported, of size 0 without `Content-Length` and of the size parsed
from it otherwise, or the parse error of a `Content-Length` that does not
parse. So whenever `Resolve` succeeds, the resource is range-supported exactly
in the first case; and whenever it fails, the fetcher's resource is left as it
was. -/
theorem resolve_classifies (d : Deps) (p h : List Char) (m : FetcherMeta)
    (resp : Response) :
    (resp.StatusCode ≠ 200 → resp.StatusCode ≠ 206 →
        Resolve d p h m (.ok resp) = (some (.request resp.StatusCode resp.Status), m)) ∧
      (∀ m', Resolve d p h m (.ok resp) = (none, m') →
        ∃ res, m'.Res = some res ∧
          (res.Range = true ↔
            (resp.StatusCode = 206 ∨
              (resp.StatusCode = 200 ∧ resp.AcceptRanges = "bytes".toList ∧
                "bytes".toList.isPrefixOf resp.ContentRange = true)))) ∧
      ((resp.StatusCode = 206 ∨
          (resp.StatusCode = 200 ∧ resp.AcceptRanges = "bytes".toList ∧
            "bytes".toList.isPrefixOf resp.ContentRange = true)) →
        (pathBase resp.ContentRange = ['*'] →
          ∃ res, Resolve d p h m (.ok resp) = (none, { m with Res := some res }) ∧
            res.Range = true ∧ res.Size = 0) ∧
        (∀ v, pathBase resp.ContentRange ≠ ['*'] →
          parseInt (pathBase resp.ContentRange) = .ok v →
          ∃ res, Resolve d p h m (.ok resp) = (none, { m with Res := some res }) ∧
            res.Range = true ∧ res.Size = v) ∧
        (∀ k, pathBase resp.ContentRange ≠ ['*'] →
          parseInt (pathBase resp.ContentRange) = .error k →
          Resolve d p h m (.ok resp)
            = (some (.parse k (pathBase resp.ContentRange)), m))) ∧
      (resp.StatusCode = 200 →
        ¬ (resp.AcceptRanges = "bytes".toList ∧
            "bytes".toList.isPrefixOf resp.ContentRange = true) →
        (resp.ContentLength = [] →
          ∃ res, Resolve d p h m (.ok resp) = (none, { m with Res := some res }) ∧
            res.Range = false ∧ res.Size = 0) ∧
        (∀ v, resp.ContentLength ≠ [] → parseInt resp.ContentLength = .ok v →
          ∃ res, Resolve d p h m (.ok resp) = (none, { m with Res := some res }) ∧
            res.Range = false ∧ res.Size = v) ∧
        (∀ k, resp.ContentLength ≠ [] → parseInt resp.ContentLength = .error k →
          Resolve d p h m (.ok resp) = (some (.parse k resp.ContentLength), m))) ∧
      (∀ e m', Resolve d p h m (.ok resp) = (some e, m') → m' = m) := by
  refine ⟨?_, ?_, ?_, ?_, ?_⟩
  · intro h200 h206
    exact Resolve_error d p h m resp _ (classify_other resp h200 h206)
  · intro m' hres
    cases hc : classify resp with
    | error e =>
      rw [Resolve_error d p h m resp e hc] at hres
      cases hres
    | ok q =>
      obtain ⟨rg, sz⟩ := q
      rw [Resolve_ok d p h m resp rg sz hc] at hres
      cases hres
      exact ⟨_, rfl, classify_flag resp rg sz hc⟩
  · intro hr
    have hc := classify_range resp hr
    have hnil := pathBase_ne_nil resp.ContentRange
    refine ⟨?_, ?_, ?_⟩
    · intro hstar
      rw [if_neg (fun hh => hh.2 hstar)] at hc
      exact ⟨Resource.mk true 0 _, Resolve_ok d p h m resp true 0 hc, rfl, rfl⟩
    · intro v hstar hv
      rw [if_pos ⟨hnil, hstar⟩, hv] at hc
      exact ⟨Resource.mk true v _, Resolve_ok d p h m resp true v hc, rfl, rfl⟩
    · intro k hstar hk
      rw [if_pos ⟨hnil, hstar⟩, hk] at hc
      exact Resolve_error d p h m resp _ hc
  · intro h200 hnot
    have hr : ¬ rangeStatus resp := by
      rintro (h206 | ⟨_, h2, h3⟩)
      · rw [h200] at h206; cases h206
      · exact hnot ⟨h2, h3⟩
    have hc := classify_plain resp hr h200
    refine ⟨?_, ?_, ?_⟩
    · intro hcl
      rw [if_neg (by simp [hcl])] at hc
      exact ⟨Resource.mk false 0 _, Resolve_ok d p h m resp false 0 hc, rfl, rfl⟩
    · intro v hcl hv
      rw [if_pos hcl, hv] at hc
      exact ⟨Resource.mk false v _, Resolve_ok d p h m resp false v hc, rfl, rfl⟩
    · intro k hcl hk
      rw [if_pos hcl, hk] at hc
      exact Resolve_error d p h m resp _ hc
  · intro e m' hres
    cases hc : classify resp with
    | error e' =>
      rw [Resolve_error d p h m resp e' hc] at hres
      cases hres; rfl
    | ok q =>
      obtain ⟨rg, sz⟩ := q
      rw [Resolve_ok d p h m resp rg sz hc] at hres
      cases hres

/-- Witness of the amended C7: a probe answered 206 with
`Content-Range: bytes 0-0/*` gives a range-supported resource of size 0. -/
theorem resolve_classifies_witness :
    ∃ res, Resolve plainDeps [] [] { Res := none, Connections := 1 }
        (.ok (partialContent "bytes 0-0/*".toList))
          = (none, { Res := some res, Connections := 1 }) ∧
      res.Range = true ∧ res.Size = 0 :=
  ((resolve_classifies plainDeps [] [] { Res := none, Connections := 1 }
    (partialContent "bytes 0-0/*".toList)).2.2.1 (Or.inl rfl)).1 (by decide)

end Fetcher

namespace Fetcher

/-! ## `Resolve`: the file name -/







/-- C8, as stated, fails: with the `Content-Disposition` filename `.`, the URL
path `/file.txt` and the host `example.com`, rule (b) gives `file.txt`, which
the rules of the specification select, but `Resolve` names the file
`example.com`: a filename that is `/` or `.` skips rule (b). -/
theorem deriveName_skips_path :
    queryUnescape (pathBase "/file.txt".toList) = "file.txt".toList ∧
      nameByRules queryUnescape ".".toList "/file.txt".toList "example.com".toList
        = some "file.txt".toList ∧
      deriveName queryUnescape ".".toList "/file.txt".toList "example.com".toList
        = "example.com".toList := by
  decide

/-- C8, amended. For the `Content-Disposition` filename `d` (after
encoded-word decoding), the URL path `p` and the host `h`, the file name of
`Resolve` is `d` when `d` is not empty, `/` or `.`; when `d` is empty it is the
URL-decoded base name of `p`, unless that is empty, `/` or `.`, and then it is
`h`; when `d` is `/` or `.` it is `h`. These are the rules (a), (b), (c) of
the specification whenever `d` is not `/` or `.`. -/
theorem deriveName_rules (d : Deps) (p h : List Char) (m : FetcherMeta) (resp : Response) :
    (∀ m', Resolve d p h m (.ok resp) = (none, m') →
        ∃ res file, m'.Res = some res ∧ res.Files = [file] ∧
          file.Name = deriveName d.queryUnescape
            (dispositionName d resp.ContentDisposition) p h) ∧
      (∀ n : List Char, ¬ badName n → deriveName d.queryUnescape n p h = n) ∧
      (¬ badName (d.queryUnescape (pathBase p)) →
        deriveName d.queryUnescape [] p h = d.queryUnescape (pathBase p)) ∧
      (badName (d.queryUnescape (pathBase p)) → deriveName d.queryUnescape [] p h = h) ∧
      deriveName d.queryUnescape ['/'] p h = h ∧
      deriveName d.queryUnescape ['.'] p h = h ∧
      (∀ n : List Char, n ≠ ['/'] → n ≠ ['.'] → ¬ badName h →
        nameByRules d.queryUnescape n p h = some (deriveName d.queryUnescape n p h)) := by
  have hb := pathBase_ne_nil p
  have hempty : deriveName d.queryUnescape [] p h
      = if badName (d.queryUnescape (pathBase p)) then h
        else d.queryUnescape (pathBase p) := by
    simp only [deriveName, if_true, hb, ne_eq, not_false_eq_true, badName]
  have hgood : ∀ n : List Char, ¬ badName n → deriveName d.queryUnescape n p h = n := by
    intro n hn
    have hne : n ≠ [] := fun h0 => hn (Or.inl h0)
    simp only [deriveName, if_neg hne]
    exact if_neg hn
  refine ⟨?_, hgood, ?_, ?_, ?_, ?_, ?_⟩
  · intro m' hres
    cases hc : classify resp with
    | error e =>
      rw [Resolve_error d p h m resp e hc] at hres
      cases hres
    | ok q =>
      obtain ⟨rg, sz⟩ := q
      rw [Resolve_ok d p h m resp rg sz hc] at hres
      cases hres
      exact ⟨_, _, rfl, rfl, rfl⟩
  · intro hn; rw [hempty, if_neg hn]
  · intro hn; rw [hempty, if_pos hn]
  · simp [deriveName]
  · simp [deriveName]
  · intro n h1 h2 hh
    by_cases hn : badName n
    · have hn0 : n = [] := by
        rcases hn with h0 | h0 | h0
        · exact h0
        · exact absurd h0 h1
        · exact absurd h0 h2
      subst hn0
      rw [hempty]
      unfold nameByRules
      rw [List.find?_cons_of_neg _ (by simpa using hn)]
      by_cases hu : badName (d.queryUnescape (pathBase p))
      · rw [if_pos hu, List.find?_cons_of_neg _ (by simpa using hu),
          List.find?_cons_of_pos _ (by simpa using hh)]
      · rw [if_neg hu, List.find?_cons_of_pos _ (by simpa using hu)]
    · rw [hgood n hn]
      unfold nameByRules
      rw [List.find?_cons_of_pos _ (by simpa using hn)]

end Fetcher

namespace Fetcher

/-! ## `Resolve`: the total of `Content-Range` -/





theorem digitsValue_ge (n : Nat) (ds : List Char) : n ≤ digitsValue n ds := by
  induction ds generalizing n with
  | nil => exact le_refl n
  | cons c cs ih =>
    have := ih (n * 10 + (c.toNat - '0'.toNat))
    simp only [digitsValue, List.foldl_cons] at this ⊢
    omega

theorem maxUint64_eq : maxUint64 = 18446744073709551615 := by decide

theorem parseUintLoop_digits (n : Nat) (ds : List Char)
    (hd : ∀ c ∈ ds, '0' ≤ c ∧ c ≤ '9') (hn : n ≤ maxUint64) :
    parseUintLoop n ds =
      if digitsValue n ds ≤ maxUint64 then .ok (digitsValue n ds) else .error true := by
  induction ds generalizing n with
  | nil =>
    simp only [parseUintLoop, digitsValue, List.foldl_nil, if_pos hn]
  | cons c cs ih =>
    have hc := hd c (List.mem_cons_self _ _)
    have hcs : ∀ x ∈ cs, '0' ≤ x ∧ x ≤ '9' := fun x hx => hd x (List.mem_cons_of_mem _ hx)
    have hge := digitsValue_ge (n * 10 + (c.toNat - '0'.toNat)) cs
    have hval : digitsValue n (c :: cs) = digitsValue (n * 10 + (c.toNat - '0'.toNat)) cs := rfl
    rw [hval]
    simp only [parseUintLoop, if_pos hc]
    rw [maxUint64_eq] at *
    by_cases h1 : n ≥ 18446744073709551615 / 10 + 1
    · rw [if_pos h1, if_neg (by omega)]
    · rw [if_neg h1]
      by_cases h2 : n * 10 + (c.toNat - '0'.toNat) > 18446744073709551615
      · rw [if_pos h2, if_neg (by omega)]
      · rw [if_neg h2]
        exact ih _ hcs (by omega)

theorem parseUintLoop_nondigit (n : Nat) (ds : List Char)
    (hd : ¬ ∀ c ∈ ds, '0' ≤ c ∧ c ≤ '9') : ∃ k, parseUintLoop n ds = .error k := by
  induction ds generalizing n with
  | nil => exact absurd (fun c hc => by cases hc) hd
  | cons c cs ih =>
    by_cases hc : '0' ≤ c ∧ c ≤ '9'
    · have hcs : ¬ ∀ x ∈ cs, '0' ≤ x ∧ x ≤ '9' := by
        intro hall
        apply hd
        intro x hx
        rcases List.mem_cons.1 hx with rfl | hx
        · exact hc
        · exact hall x hx
      simp only [parseUintLoop, if_pos hc]
      split_ifs
      · exact ⟨true, rfl⟩
      · exact ⟨true, rfl⟩
      · exact ih _ hcs
    · simp only [parseUintLoop, if_neg hc]
      exact ⟨false, rfl⟩

/-- `ParseUint` accepts exactly the runs of digits whose value fits. -/
theorem parseUint_spec (ds : List Char) :
    (isDigits ds → digitsValue 0 ds ≤ maxUint64 → parseUint ds = .ok (digitsValue 0 ds)) ∧
      (isDigits ds → ¬ digitsValue 0 ds ≤ maxUint64 → parseUint ds = .error true) ∧
      (¬ isDigits ds → ∃ k, parseUint ds = .error k) := by
  refine ⟨?_, ?_, ?_⟩
  · rintro ⟨hne, hd⟩ hv
    unfold parseUint
    rw [if_neg hne, parseUintLoop_digits 0 ds hd (by rw [maxUint64_eq]; omega), if_pos hv]
  · rintro ⟨hne, hd⟩ hv
    unfold parseUint
    rw [if_neg hne, parseUintLoop_digits 0 ds hd (by rw [maxUint64_eq]; omega), if_neg hv]
  · intro hnd
    unfold parseUint
    by_cases hne : ds = []
    · rw [if_pos hne]; exact ⟨false, rfl⟩
    · rw [if_neg hne]
      exact parseUintLoop_nondigit 0 ds (fun hall => hnd ⟨hne, hall⟩)

end Fetcher

namespace Fetcher

theorem parseInt_of_ok (c : Char) (cs : List Char) (v : Nat)
    (h : parseUint (if c = '+' ∨ c = '-' then cs else c :: cs) = .ok v) :
    parseInt (c :: cs) =
      if decide (c = '-') = false ∧ v ≥ (2 ^ 63 : Nat) then .error true
      else if decide (c = '-') = true ∧ v > (2 ^ 63 : Nat) then .error true
      else .ok (if decide (c = '-') = true then -(v : Int) else (v : Int)) := by
  simp only [parseInt, h]

theorem parseInt_of_error (c : Char) (cs : List Char) (k : Bool)
    (h : parseUint (if c = '+' ∨ c = '-' then cs else c :: cs) = .error k) :
    ∃ k', parseInt (c :: cs) = .error k' := by
  cases k with
  | false => exact ⟨false, by simp only [parseInt, h]⟩
  | true =>
    refine ⟨true, ?_⟩
    simp only [parseInt, h]
    by_cases hneg : c = '-'
    · simp [hneg, maxUint64_eq]
    · simp [hneg, maxUint64_eq]

/-- `ParseInt` accepts exactly the texts that `decimalInt64` gives a value to,
with that value. -/
theorem parseInt_spec (s : List Char) :
    (∀ v, decimalInt64 s = some v → parseInt s = .ok v) ∧
      (decimalInt64 s = none → ∃ k, parseInt s = .error k) := by
  cases s with
  | nil =>
    refine ⟨fun v hv => ?_, fun _ => ⟨false, rfl⟩⟩
    simp [decimalInt64, isDigits] at hv
  | cons c cs =>
    have hdec : decimalInt64 (c :: cs) =
        if isDigits (if c = '+' ∨ c = '-' then cs else c :: cs) then
          if c = '-' then
            if digitsValue 0 (if c = '+' ∨ c = '-' then cs else c :: cs) ≤ 2 ^ 63 then
              some (-(digitsValue 0 (if c = '+' ∨ c = '-' then cs else c :: cs) : Int))
            else none
          else
            if digitsValue 0 (if c = '+' ∨ c = '-' then cs else c :: cs) < 2 ^ 63 then
              some (digitsValue 0 (if c = '+' ∨ c = '-' then cs else c :: cs) : Int)
            else none
        else none := by
      simp only [decimalInt64, List.head?_cons, Option.some.injEq, List.tail_cons]
    rw [hdec]
    have hokc := parseInt_of_ok c cs
    have herrc := parseInt_of_error c cs
    generalize (if c = '+' ∨ c = '-' then cs else c :: cs) = body at *
    obtain ⟨hok, hbig, hbad⟩ := parseUint_spec body
    by_cases hd : isDigits body
    · rw [if_pos hd]
      by_cases hv : digitsValue 0 body ≤ maxUint64
      · have hp := hokc _ (hok hd hv)
        rw [hp]
        by_cases hneg : c = '-'
        · simp only [hneg, decide_True, Bool.true_eq_false, false_and, if_false, true_and,
            if_true]
          by_cases hle : digitsValue 0 body ≤ 2 ^ 63
          · rw [if_pos hle, if_neg (by omega)]
            exact ⟨fun v hv' => (by cases hv'; rfl), fun h => (by cases h)⟩
          · rw [if_neg hle, if_pos (by omega)]
            exact ⟨fun v hv' => (by cases hv'), fun _ => ⟨true, rfl⟩⟩
        · simp only [hneg, decide_False, Bool.false_eq_true, false_and, if_false, true_and]
          by_cases hlt : digitsValue 0 body < 2 ^ 63
          · rw [if_pos hlt, if_neg (by omega)]
            exact ⟨fun v hv' => (by cases hv'; rfl), fun h => (by cases h)⟩
          · rw [if_neg hlt, if_pos (by omega)]
            exact ⟨fun v hv' => (by cases hv'), fun _ => ⟨true, rfl⟩⟩
      · have hgt : ¬ digitsValue 0 body ≤ 2 ^ 63 ∧ ¬ digitsValue 0 body < 2 ^ 63 := by
          rw [maxUint64_eq] at hv
          constructor <;> omega
        rw [if_neg hgt.1, if_neg hgt.2]
        refine ⟨fun v hv' => ?_, fun _ => herrc true (hbig hd hv)⟩
        split_ifs at hv'
    · rw [if_neg hd]
      obtain ⟨k, hk⟩ := hbad hd
      exact ⟨fun v hv' => (by cases hv'), fun _ => herrc k hk⟩

end Fetcher

namespace Fetcher



theorem pathBase_eq_afterLastSlash (s : List Char) (h : afterLastSlash s ≠ []) :
    pathBase s = afterLastSlash s := by
  have hs : s ≠ [] := by
    rintro rfl
    exact h rfl
  have hstrip : stripTrailingSlashes s = s := by
    unfold stripTrailingSlashes
    unfold afterLastSlash at h
    cases hr : s.reverse with
    | nil => rw [hr] at h; exact absurd rfl h
    | cons c t =>
      rw [hr] at h
      by_cases hc : c = '/'
      · subst hc
        exact absurd (by simp) h
      · have : List.dropWhile (fun x => decide (x = '/')) (c :: t) = c :: t := by
          simp [List.dropWhile, hc]
        rw [this, ← hr, List.reverse_reverse]
  unfold pathBase
  rw [if_neg hs, hstrip]
  simp only
  rw [if_neg h]

/-- C6, as stated, fails, for a probe answered 206: the total
`9223372036854775808` is a non-negative decimal integer, yet `Resolve` fails on
it with a range error; the total `-5` is not one, yet `Resolve` succeeds with
size -5; and with an empty total (`bytes 0-0/`) `Resolve` does not succeed
with size 0 but fails on parsing `bytes 0-0`. -/
theorem resolve_total_not_as_stated :
    Resolve plainDeps [] [] { Res := none, Connections := 1 }
        (.ok (partialContent "bytes 0-0/9223372036854775808".toList))
      = (some (.parse true "9223372036854775808".toList), { Res := none, Connections := 1 }) ∧
    ((Resolve plainDeps [] [] { Res := none, Connections := 1 }
        (.ok (partialContent "bytes 0-0/-5".toList))).1 = none ∧
      ((Resolve plainDeps [] [] { Res := none, Connections := 1 }
        (.ok (partialContent "bytes 0-0/-5".toList))).2.Res.map fun r => (r.Range, r.Size))
        = some (true, -5)) ∧
    Resolve plainDeps [] [] { Res := none, Connections := 1 }
        (.ok (partialContent "bytes 0-0/".toList))
      = (some (.parse false "bytes 0-0".toList), { Res := none, Connections := 1 }) := by
  refine ⟨?_, ⟨?_, ?_⟩, ?_⟩ <;> rfl

/-- C6, amended. For a probe response classified as range-supported whose
`Content-Range` value has a non-empty text after its final `/`: if that text
is `*`, `Resolve` succeeds with size 0; if it is an integer in the range of
`int64`, written in decimal digits with an optional sign, `Resolve` succeeds
with that size; in every other case `Resolve` fails with the parse error on
that text. -/
theorem resolve_content_total (d : Deps) (p h : List Char) (m : FetcherMeta)
    (resp : Response) (hr : rangeStatus resp)
    (hne : afterLastSlash resp.ContentRange ≠ []) :
    (afterLastSlash resp.ContentRange = ['*'] →
        ∃ res, Resolve d p h m (.ok resp) = (none, { m with Res := some res }) ∧
          res.Range = true ∧ res.Size = 0) ∧
      (∀ v, decimalInt64 (afterLastSlash resp.ContentRange) = some v →
        ∃ res, Resolve d p h m (.ok resp) = (none, { m with Res := some res }) ∧
          res.Range = true ∧ res.Size = v) ∧
      (afterLastSlash resp.ContentRange ≠ ['*'] →
        decimalInt64 (afterLastSlash resp.ContentRange) = none →
        ∃ k, Resolve d p h m (.ok resp)
          = (some (.parse k (afterLastSlash resp.ContentRange)), m)) := by
  have hc := classify_range resp hr
  rw [pathBase_eq_afterLastSlash _ hne] at hc
  obtain ⟨hok, herr⟩ := parseInt_spec (afterLastSlash resp.ContentRange)
  refine ⟨?_, ?_, ?_⟩
  · intro hstar
    rw [if_neg (by simp [hstar])] at hc
    exact ⟨Resource.mk true 0 _, Resolve_ok d p h m resp true 0 hc, rfl, rfl⟩
  · intro v hv
    have hstar : afterLastSlash resp.ContentRange ≠ ['*'] := by
      intro hstar
      have hnone : decimalInt64 ['*'] = none := by decide
      rw [hstar, hnone] at hv
      cases hv
    rw [if_pos ⟨hne, hstar⟩, hok v hv] at hc
    exact ⟨Resource.mk true v _, Resolve_ok d p h m resp true v hc, rfl, rfl⟩
  · intro hstar hnone
    obtain ⟨k, hk⟩ := herr hnone
    rw [if_pos ⟨hne, hstar⟩, hk] at hc
    exact ⟨k, Resolve_error d p h m resp _ hc⟩

/-- Witness of the amended C6: the probe of the specification's happy path,
`Content-Range: bytes 0-0/10000`. -/
theorem resolve_content_total_witness :
    ∃ res, Resolve plainDeps [] [] { Res := none, Connections := 1 }
        (.ok (partialContent "bytes 0-0/10000".toList))
          = (none, { Res := some res, Connections := 1 }) ∧
      res.Range = true ∧ res.Size = 10000 :=
  (resolve_content_total plainDeps [] [] { Res := none, Connections := 1 }
    (partialContent "bytes 0-0/10000".toList) (Or.inl rfl) (by decide)).2.1 10000 (by decide)

end Fetcher
